import Mathlib

/-!
# Verification of the SemanticX directory-crawl worker

Shallow embedding of `src/workers/directory.ts`: the directory crawl worker,
its batch file-persistence helper, and the completion-tracking protocol
embedded in the queue lifecycle hooks (`on "completed"` / `on "failed"`).

Modelling conventions:
* Slash-delimited path strings are modelled as the list of their slash
  separated segments (`"src/utils"` ↦ `["src", "utils"]`); the run root `""`
  is `[]`.  JavaScript `path.split("/").slice(0, -1).join("/")` is
  `List.dropLast` on segments.
* Database rows carry synthetic `Nat` identifiers allocated in creation
  order (`nextId` threading) in place of cuid strings.
* `sendProcessingUpdate (repositoryId, {status, message})` calls are modelled
  as emitted `ProgressUpdate` values; the message templates of the source are
  represented structurally, one constructor per template, carrying the
  interpolated data.
* External failures (GitHub fetch, a prisma `$transaction`) are supplied by
  oracles: the fetch outcome is an `Except`, one `Option String` per
  transaction says whether it aborts.
* The redis counter is an `Int` (`DECR` on redis is defined on any integer).
-/

/-- `RepositoryStatus` from the prisma schema, as used by the worker. -/
inductive RepositoryStatus where
  | PENDING
  | PROCESSING
  | SUCCESS
  | FAILED
deriving DecidableEq, Repr

/-- `type` field of a GitHub content item (`src/interfaces/github.ts`). -/
inductive ItemType where
  | dir
  | file
deriving DecidableEq, Repr

/-- One GitHub content item returned by `fetchGithubContent`; `path` is in
segments, `content` is `none` when the content fetch was skipped. -/
structure GitHubContent where
  path : List String
  name : String
  itemType : ItemType
  content : Option String
deriving DecidableEq, Repr

/-- A persisted `Directory` row (`prisma.directory.create`, directory.ts
lines 45-51). -/
structure DirectoryRow where
  id : Nat
  path : List String
  repositoryId : String
  parentId : Option Nat
deriving DecidableEq, Repr

/-- A persisted `File` row (`prisma.file.create`, directory.ts lines 149-157). -/
structure FileRow where
  id : Nat
  path : List String
  name : String
  content : String
  repositoryId : String
  directoryId : Option Nat
deriving DecidableEq, Repr

/-- The message templates sent through `sendProcessingUpdate` in
directory.ts, one constructor per template, carrying the interpolated data. -/
inductive UpdateMessage where
  /-- `Processing directory: {path}` (line 33) -/
  | processingDirectory (path : List String)
  /-- `Processing {n} files in batches for {path}` (lines 132-134) -/
  | processingFilesCount (n : Nat) (path : List String)
  /-- `Saved batch {i}/{total} ({len} files) for {path}` (lines 166-168) -/
  | savedBatch (i total len : Nat) (path : List String)
  /-- `Finished processing {n} files in {path}` (lines 174-176) -/
  | finishedFiles (n : Nat) (path : List String)
  /-- `Failed to save files in {path} --handleLargeFileSet` (lines 194-196) -/
  | failedFiles (path : List String)
  /-- `Finished processing directory: {path}` (line 86) -/
  | finishedDirectory (path : List String)
  /-- `Failed to process directory: {path}` (line 113) -/
  | failedDirectory (path : List String)
  /-- `All directories and files have been processed.` (line 235) -/
  | allProcessed
deriving DecidableEq, Repr

/-- One `sendProcessingUpdate` payload: a status plus a message. -/
structure ProgressUpdate where
  status : RepositoryStatus
  message : UpdateMessage
deriving DecidableEq, Repr

/-! ## Batch file persistence (`processFilesInBatches`, lines 123-201) -/

/-- The slicing loop of lines 137-140: the loop body pushes
`files.slice(i, i + B)` for `i = 0, B, 2B, ...` while `i < files.length`,
i.e. chunk `k` is `(files.drop (k * B)).take B` for
`k < ⌈files.length / B⌉`.  (`B = 0`, where the JS loop would not terminate,
never arises from the source: `FILE_BATCH_SIZE` is a positive constant.) -/
def chunkBatches (B : Nat) (l : List GitHubContent) : List (List GitHubContent) :=
  (List.range ((l.length + B - 1) / B)).map fun k => (l.drop (k * B)).take B

/-- The `File` rows created for one batch (lines 148-158): ids are allocated
consecutively from `nid`; `content: file.content || ""` becomes `getD ""`. -/
def mkFileRows (b : List GitHubContent) (nid : Nat) (repositoryId : String)
    (directoryId : Option Nat) : List FileRow :=
  b.enum.map fun p =>
    { id := nid + p.1
      path := p.2.path
      name := p.2.name
      content := p.2.content.getD ""
      repositoryId := repositoryId
      directoryId := directoryId }

/-- Result of running the batch loop / the whole helper: the rows committed
per transaction, the updates emitted, the next free id, and whether an error
was thrown to the caller. -/
structure BatchOut where
  committed : List (List FileRow)
  updates : List ProgressUpdate
  nextId : Nat
  result : Except String Nat
deriving Repr

/-- The `for` loop of lines 144-170.  `i` is the loop index, `total` the
batch count (`fileBatches.length`); `txOracle i` decides whether the `i`-th
`prisma.$transaction` aborts (returning its error).  A failing transaction
commits nothing, emits nothing here (the FAILED update is appended by the
`catch` of the helper), and stops the loop. -/
def runBatches (repositoryId : String) (currentPath : List String)
    (directoryId : Option Nat) (total : Nat) (txOracle : Nat → Option String) :
    Nat → Nat → List (List GitHubContent) → BatchOut
  | _, nid, [] => ⟨[], [], nid, .ok 0⟩
  | i, nid, b :: bs =>
    match txOracle i with
    | some e => ⟨[], [], nid, .error e⟩
    | none =>
      let rows := mkFileRows b nid repositoryId directoryId
      let rest := runBatches repositoryId currentPath directoryId total txOracle
        (i + 1) (nid + b.length) bs
      ⟨rows :: rest.committed,
       ⟨.PROCESSING, .savedBatch (i + 1) total b.length currentPath⟩ :: rest.updates,
       rest.nextId, rest.result⟩

/-- `processFilesInBatches` (lines 123-201): initial count update, the batch
loop, on success the final SUCCESS update (lines 172-177), on error the
FAILED update of the `catch` (lines 192-197) followed by the rethrow
(line 199). -/
def processFilesInBatches (repositoryId : String) (currentPath : List String)
    (directoryId : Option Nat) (B : Nat) (txOracle : Nat → Option String)
    (files : List GitHubContent) (nid : Nat) : BatchOut :=
  let batches := chunkBatches B files
  let r := runBatches repositoryId currentPath directoryId batches.length txOracle 0 nid batches
  { committed := r.committed
    updates :=
      ⟨.PROCESSING, .processingFilesCount files.length currentPath⟩ ::
        (r.updates ++
          match r.result with
          | .ok _ => [⟨.SUCCESS, .finishedFiles files.length currentPath⟩]
          | .error _ => [⟨.FAILED, .failedFiles currentPath⟩])
    nextId := r.nextId
    result := r.result }

/-! ## The directory crawl worker (lines 20-121) -/

/-- `directoryMap.get(key)` where the map is modelled as an association
list (later bindings shadow earlier ones, as `Map.set` overwrites). -/
def lookupRow (m : List (List String × DirectoryRow)) (k : List String) :
    Option DirectoryRow :=
  (m.find? fun e => e.1 == k).map (·.2)

/-- Whether BullMQ fires the `completed` or the `failed` hook for a job:
`completed` iff the processor's promise resolves. -/
inductive JobOutcome where
  | completed
  | failed
deriving DecidableEq, Repr

/-- Everything observable from one execution of the worker processor. -/
structure JobResult where
  /-- the `prisma.repository.update` of the catch block, if it ran -/
  statusWrite : Option RepositoryStatus
  updates : List ProgressUpdate
  /-- directory rows committed by the `prisma.$transaction` of line 55 -/
  dirRows : List DirectoryRow
  /-- file rows committed, one list per file transaction -/
  fileBatches : List (List FileRow)
  /-- paths of the child jobs added to `directoryQueue` (lines 74-79) -/
  children : List (List String)
  /-- number of `redisConnection.incr` calls performed (line 73) -/
  counterIncrs : Nat
  /-- which queue lifecycle hook fires for this job -/
  outcome : JobOutcome
  /-- the `{ status: "SUCCESS", processed: items.length }` return, if reached -/
  returnValue : Option Nat
  nextId : Nat
deriving Repr

/-- Intermediate output of the `try` block (steps 1-6 plus the final
updates), before the `catch` is applied. -/
structure BodyOut where
  updates : List ProgressUpdate
  dirRows : List DirectoryRow
  fileBatches : List (List FileRow)
  children : List (List String)
  counterIncrs : Nat
  nextId : Nat
  result : Except String Nat
deriving Repr

/-- `items.filter((item) => item.type === "dir")` (line 36). -/
def workerDirectories (items : List GitHubContent) : List GitHubContent :=
  items.filter fun it => it.itemType == ItemType.dir

/-- `items.filter((item) => item.type === "file")` (line 37). -/
def workerFiles (items : List GitHubContent) : List GitHubContent :=
  items.filter fun it => it.itemType == ItemType.file

/-- The rows built by `directories.map(...)` (lines 41-52).  Faithful
detail: `directoryMap` is a **fresh empty map** when these callbacks run —
it is only populated from `createdDirectories` *after* the transaction
(lines 57-60) — so each callback's `directoryMap.get(parentPath)` consults
the empty map. -/
def workerDirectoryData (repositoryId : String) (nid : Nat)
    (directories : List GitHubContent) : List DirectoryRow :=
  let directoryMap0 : List (List String × DirectoryRow) := []
  directories.enum.map fun p =>
    let parentPath := p.2.path.dropLast
    let parentDir := lookupRow directoryMap0 parentPath
    { id := nid + p.1
      path := p.2.path
      repositoryId := repositoryId
      parentId := parentDir.map (·.id) }

/-- Lines 57-60: `createdDirectories.forEach(d => directoryMap.set(d.path, d))`. -/
def buildDirectoryMap (createdDirectories : List DirectoryRow) :
    List (List String × DirectoryRow) :=
  createdDirectories.foldl (fun m d => (d.path, d) :: m) []

/-- Lines 62-65: `files[0]?.path.split("/") || []`, `pop()`, `join("/")`. -/
def dirPathOf (files : List GitHubContent) : List String :=
  (match files.head? with
    | some f => f.path
    | none => []).dropLast

/-- Line 66: `directoryMap.get(dirPath)?.id || null`. -/
def workerDirectoryId (directoryMap : List (List String × DirectoryRow))
    (files : List GitHubContent) : Option Nat :=
  (lookupRow directoryMap (dirPathOf files)).map (·.id)

/-- The `try` block of the worker processor (lines 26-96), given the fetch
outcome and the transaction oracles. -/
def directoryWorkerBody (repositoryId : String) (path : List String)
    (fetchResult : Except String (List GitHubContent)) (dirTx : Option String)
    (B : Nat) (txOracle : Nat → Option String) (nid : Nat) : BodyOut :=
  match fetchResult with
  | .error e => ⟨[], [], [], [], 0, nid, .error e⟩
  | .ok items =>
    let u1 : ProgressUpdate := ⟨.PROCESSING, .processingDirectory path⟩
    let directories := workerDirectories items
    let files := workerFiles items
    let directoryData := workerDirectoryData repositoryId nid directories
    match dirTx with
    | some e => ⟨[u1], [], [], [], 0, nid, .error e⟩
    | none =>
      let createdDirectories := directoryData
      let directoryMap := buildDirectoryMap createdDirectories
      let directoryId := workerDirectoryId directoryMap files
      let nid1 := nid + createdDirectories.length
      let pf := processFilesInBatches repositoryId path directoryId B txOracle files nid1
      match pf.result with
      | .error e =>
        ⟨u1 :: pf.updates, createdDirectories, pf.committed, [], 0, pf.nextId, .error e⟩
      | .ok _ =>
        -- lines 71-81: per subdirectory, incr then enqueue
        let children := directories.map (·.path)
        let u2 : ProgressUpdate := ⟨.PROCESSING, .finishedDirectory path⟩
        ⟨u1 :: (pf.updates ++ [u2]), createdDirectories, pf.committed, children,
         directories.length, pf.nextId, .ok items.length⟩

/-- The whole worker processor (lines 20-121): the `try` block, then the
`catch` of lines 97-115.  The catch sets `Run.status = FAILED`, emits a
FAILED update, and **returns normally** (it does not rethrow), so the
processor's promise resolves in both branches and BullMQ fires the
`completed` hook either way. -/
def directoryWorkerRun (repositoryId : String) (path : List String)
    (fetchResult : Except String (List GitHubContent)) (dirTx : Option String)
    (B : Nat) (txOracle : Nat → Option String) (nid : Nat) : JobResult :=
  let b := directoryWorkerBody repositoryId path fetchResult dirTx B txOracle nid
  match b.result with
  | .ok n =>
    { statusWrite := none
      updates := b.updates
      dirRows := b.dirRows
      fileBatches := b.fileBatches
      children := b.children
      counterIncrs := b.counterIncrs
      outcome := .completed
      returnValue := some n
      nextId := b.nextId }
  | .error _ =>
    { statusWrite := some .FAILED
      updates := b.updates ++ [⟨.FAILED, .failedDirectory path⟩]
      dirRows := b.dirRows
      fileBatches := b.fileBatches
      children := b.children
      counterIncrs := b.counterIncrs
      outcome := .completed
      returnValue := none
      nextId := b.nextId }

/-! ## The completion tracker (`on "completed"`, lines 209-244) -/

/-- Output of one run of the `completed` hook. -/
structure CompletedOut where
  counter : Int
  status : RepositoryStatus
  updates : List ProgressUpdate
deriving DecidableEq, Repr

/-- The `completed` hook (lines 209-244): atomically decrement
`repo:{id}:pending_jobs` obtaining the post-decrement value, read the run
status, and transition to SUCCESS (emitting the SUCCESS update) exactly when
the value is `0` and the status read is `PROCESSING`; otherwise log only. -/
def onCompletedHandler (counter : Int) (status : RepositoryStatus) : CompletedOut :=
  let v := counter - 1
  if v = 0 ∧ status = RepositoryStatus.PROCESSING then
    ⟨v, .SUCCESS, [⟨.SUCCESS, .allProcessed⟩]⟩
  else
    ⟨v, status, []⟩

/-! ## Counter / queue events of the enqueue loop (lines 71-81)

`Promise.all(directories.map(async dir => { await incr(...); await add(...) }))`
starts one asynchronous chain per discovered subdirectory; each chain performs
its increment strictly before its enqueue, and the chains interleave
arbitrarily.  A trace of the loop is therefore any interleaving of the
two-event sequences `[incr d, enq d]`: a list that is a permutation of their
concatenation in which each chain's sequence occurs as a sublist. -/

/-- A primitive effect of the enqueue loop, tagged with the subdirectory
whose iteration performs it. -/
inductive QEvent where
  /-- `redisConnection.incr("repo:{id}:pending_jobs")` (line 73) -/
  | incr (d : List String)
  /-- `directoryQueue.add("process-directory", {..., path: d})` (lines 74-79) -/
  | enq (d : List String)
deriving DecidableEq, Repr

/-- The per-subdirectory event chains of the enqueue loop. -/
def enqueueChains (dirs : List (List String)) : List (List QEvent) :=
  dirs.map fun d => [QEvent.incr d, QEvent.enq d]

/-- `tr` is a possible trace of `Promise.all` over the given chains:
it consists of exactly the chains' events, and each chain's own events occur
in order. -/
def IsLoopTrace (dirs : List (List String)) (tr : List QEvent) : Prop :=
  tr.Perm (enqueueChains dirs).flatten ∧
    ∀ d ∈ dirs, [QEvent.incr d, QEvent.enq d].Sublist tr

/-! ## The run-level protocol state machine (completion tracker)

Small-step model of one run: arbitrarily many workers execute crawl jobs
concurrently.  Constructors map to the source as follows:
* `start` — a worker picks up a queued job;
* `spawnIncr` / `spawnEnqueue` — line 73 / lines 74-79 (one discovered
  subdirectory: increment, then enqueue);
* `failSet` — the catch block's `prisma.repository.update` to FAILED
  (lines 105-108), available whenever a running job errors;
* `finish` — the processor's promise resolves (both the success return of
  line 96 and the swallowed-error fall-through of line 115);
* `handlerDecr` — the atomic `redisConnection.decr` of lines 213-215 in the
  `completed` hook, recording the post-decrement value it observed;
* `handlerCheck` — the status read and conditional SUCCESS transition of
  lines 218-243, for a handler that had observed post-decrement value `v`.

The initial state models the external initiator: counter initialized to 1
before the root job is submitted, one queued job, run status PROCESSING
(modelled from the spec: the initiator-side code that creates the run and
moves it to PROCESSING before the root job is outside this worker file). -/

structure Sys where
  counter : Int
  status : RepositoryStatus
  /-- jobs enqueued, not yet picked up by a worker -/
  queued : Nat
  /-- jobs whose processor is executing -/
  running : Nat
  /-- jobs whose processor resolved, `completed` hook not yet at its decr -/
  done : Nat
  /-- increments performed whose enqueue has not happened yet -/
  toEnqueue : Nat
  /-- post-decrement values observed by `completed` hooks whose status
  check has not run yet -/
  handlers : List Int
deriving DecidableEq, Repr

def sysInit : Sys :=
  { counter := 1, status := .PROCESSING, queued := 1, running := 0, done := 0,
    toEnqueue := 0, handlers := [] }

inductive SysStep : Sys → Sys → Prop
  | start (s : Sys) (h : 0 < s.queued) :
      SysStep s { s with queued := s.queued - 1, running := s.running + 1 }
  | spawnIncr (s : Sys) (h : 0 < s.running) :
      SysStep s { s with counter := s.counter + 1, toEnqueue := s.toEnqueue + 1 }
  | spawnEnqueue (s : Sys) (h : 0 < s.toEnqueue) :
      SysStep s { s with toEnqueue := s.toEnqueue - 1, queued := s.queued + 1 }
  | failSet (s : Sys) (h : 0 < s.running) :
      SysStep s { s with status := .FAILED }
  | finish (s : Sys) (h : 0 < s.running) :
      SysStep s { s with running := s.running - 1, done := s.done + 1 }
  | handlerDecr (s : Sys) (h : 0 < s.done) :
      SysStep s { s with counter := s.counter - 1, done := s.done - 1,
                         handlers := (s.counter - 1) :: s.handlers }
  | handlerCheck (s : Sys) (v : Int) (h : v ∈ s.handlers) :
      SysStep s { s with handlers := s.handlers.erase v,
                         status := if v = 0 ∧ s.status = .PROCESSING
                           then .SUCCESS else s.status }

/-- States reachable from the initial run state. -/
def SysReachable (s : Sys) : Prop := Relation.ReflTransGen SysStep sysInit s

/-! ## Whole-run executor over a content tree (order-independence model)

The content source is modelled as a finite tree: at each node, the named
files (with optional content) and the named subdirectories.  `fetchGithubContent`
on a job's path returns the immediate children of the corresponding node.
The executor runs jobs one at a time; the scheduler `σ` picks which pending
job each step processes, which captures every dequeue/completion order of
sibling jobs.  All external operations succeed (the order-independence claim
is about successful runs). -/

inductive CTree where
  | node (files : List (String × Option String)) (subdirs : List (String × CTree))

/-- The items `fetchGithubContent` returns for the directory at `path`
holding this node: the subdirectories and files, as single-level children. -/
def nodeItems (path : List String) : CTree → List GitHubContent
  | .node fs ds =>
    (ds.map fun p => ⟨path ++ [p.1], p.1, .dir, none⟩) ++
      (fs.map fun p => ⟨path ++ [p.1], p.1, .file, p.2⟩)

/-- The child jobs spawned at `path` for this node, with their subtrees. -/
def childrenOf (path : List String) : CTree → List (List String × CTree)
  | .node _ ds => ds.map fun p => (path ++ [p.1], p.2)

mutual
/-- Total number of crawl jobs a subtree gives rise to (itself plus,
recursively, one per subdirectory). -/
def jobCount : CTree → Nat
  | .node _ ds => 1 + jobCountList ds
def jobCountList : List (String × CTree) → Nat
  | [] => 0
  | p :: rest => jobCount p.2 + jobCountList rest
end

/-- A `DirectoryRow` with its synthetic id erased: the path and the parent
reference, which is what the final persisted state is compared on. -/
structure EDirRow where
  path : List String
  repositoryId : String
  parentId : Option Nat
deriving DecidableEq, Repr

/-- A `FileRow` with its synthetic id erased. -/
structure EFileRow where
  path : List String
  name : String
  content : String
  repositoryId : String
  directoryId : Option Nat
deriving DecidableEq, Repr

def eraseDirId (d : DirectoryRow) : EDirRow :=
  ⟨d.path, d.repositoryId, d.parentId⟩

def eraseFileId (f : FileRow) : EFileRow :=
  ⟨f.path, f.name, f.content, f.repositoryId, f.directoryId⟩

mutual
/-- All directory rows the crawl of this subtree persists (as a multiset of
id-erased rows): one row per subdirectory at every level, and — as the code
behaves — every parent reference is `none`. -/
def canonDirs (repositoryId : String) (p : List String) : CTree → Multiset EDirRow
  | .node _ ds =>
    (↑(ds.map fun q => (⟨p ++ [q.1], repositoryId, none⟩ : EDirRow)) : Multiset EDirRow) +
      canonDirsList repositoryId p ds
def canonDirsList (repositoryId : String) (p : List String) :
    List (String × CTree) → Multiset EDirRow
  | [] => 0
  | q :: rest => canonDirs repositoryId (p ++ [q.1]) q.2 + canonDirsList repositoryId p rest
end

mutual
/-- All file rows the crawl of this subtree persists (id-erased): one per
file at every level, and — as the code behaves — every `directoryId` is
`none`. -/
def canonFiles (repositoryId : String) (p : List String) : CTree → Multiset EFileRow
  | .node fs ds =>
    (↑(fs.map fun q => (⟨p ++ [q.1], q.1, q.2.getD "", repositoryId, none⟩ : EFileRow)) :
        Multiset EFileRow) +
      canonFilesList repositoryId p ds
def canonFilesList (repositoryId : String) (p : List String) :
    List (String × CTree) → Multiset EFileRow
  | [] => 0
  | q :: rest => canonFiles repositoryId (p ++ [q.1]) q.2 + canonFilesList repositoryId p rest
end

/-- Executor state: the pending jobs (path plus the node it expands), the
rows committed so far, the id supply, the pending-jobs counter and the run
status. -/
structure CrawlState where
  pending : List (List String × CTree)
  dirRows : List DirectoryRow
  fileRows : List FileRow
  nextId : Nat
  counter : Int
  status : RepositoryStatus

def crawlInit (t : CTree) : CrawlState :=
  { pending := [([], t)], dirRows := [], fileRows := [], nextId := 0,
    counter := 1, status := .PROCESSING }

/-- Run the pending job at index `i`: the worker processor executes with
everything succeeding (fetch returns the node's immediate children, all
transactions commit), its children are enqueued, then the `completed` hook
runs (atomic decrement of the incremented counter, status check). -/
def crawlStepAt (repositoryId : String) (B : Nat) (s : CrawlState)
    (i : Fin s.pending.length) : CrawlState :=
  let job := s.pending.get i
  let res := directoryWorkerRun repositoryId job.1 (.ok (nodeItems job.1 job.2)) none B
    (fun _ => none) s.nextId
  let counter1 := s.counter + res.counterIncrs
  let o := onCompletedHandler counter1 s.status
  { pending := s.pending.eraseIdx i ++ childrenOf job.1 job.2
    dirRows := s.dirRows ++ res.dirRows
    fileRows := s.fileRows ++ res.fileBatches.flatten
    nextId := res.nextId
    counter := o.counter
    status := o.status }

/-- One scheduling step: pick the pending job indexed by `c` (mod the number
of pending jobs) and run it. -/
def crawlStep (repositoryId : String) (B : Nat) (c : Nat) (s : CrawlState) : CrawlState :=
  if h : s.pending.length = 0 then s
  else crawlStepAt repositoryId B s
    ⟨c % s.pending.length, Nat.mod_lt c (Nat.pos_of_ne_zero h)⟩

/-- Run `n` scheduling steps, the `k`-th driven by `σ k`. -/
def runFrom (repositoryId : String) (B : Nat) (σ : Nat → Nat) :
    Nat → Nat → CrawlState → CrawlState
  | _, 0, s => s
  | k, n + 1, s => runFrom repositoryId B σ (k + 1) n (crawlStep repositoryId B (σ k) s)

/-- Run a whole crawl of tree `t` under scheduler `σ`: exactly `jobCount t`
jobs get processed. -/
def runCrawl (repositoryId : String) (B : Nat) (σ : Nat → Nat) (t : CTree) : CrawlState :=
  runFrom repositoryId B σ 0 (jobCount t) (crawlInit t)

/-- The final persisted state the order-independence property compares: the
id-erased directory and file rows (with their parent / directory
references), and the final run status. -/
def finalState (s : CrawlState) : Multiset EDirRow × Multiset EFileRow × RepositoryStatus :=
  (↑(s.dirRows.map eraseDirId), ↑(s.fileRows.map eraseFileId), s.status)

/-- Number of jobs the pending queue still gives rise to, transitively. -/
def pendingJobs (l : List (List String × CTree)) : Nat :=
  (l.map fun e => jobCount e.2).sum

/-- Directory rows the pending queue will still persist, transitively. -/
def pendingDirs (repositoryId : String) (l : List (List String × CTree)) :
    Multiset EDirRow :=
  (l.map fun e => canonDirs repositoryId e.1 e.2).sum

/-- File rows the pending queue will still persist, transitively. -/
def pendingFiles (repositoryId : String) (l : List (List String × CTree)) :
    Multiset EFileRow :=
  (l.map fun e => canonFiles repositoryId e.1 e.2).sum

/-- Recognizes the per-chunk `Saved batch i/total ...` update. -/
def isSavedBatch (u : ProgressUpdate) : Bool :=
  match u.message with
  | .savedBatch _ _ _ _ => true
  | _ => false

/-! ## Helper lemmas -/

theorem chunkBatches_nil (B : Nat) : chunkBatches B [] = [] := by
  unfold chunkBatches
  have h : (([] : List GitHubContent).length + B - 1) / B = 0 := by
    cases B with
    | zero => rfl
    | succ B =>
      rw [List.length_nil]
      exact Nat.div_eq_of_lt (by omega)
  rw [h]
  rfl

theorem chunkBatches_cons (B : Nat) (hB : 0 < B) (l : List GitHubContent) (hl : l ≠ []) :
    chunkBatches B l = l.take B :: chunkBatches B (l.drop B) := by
  have hn : 0 < l.length := List.length_pos.mpr hl
  have hc : (l.length + B - 1) / B = ((l.drop B).length + B - 1) / B + 1 := by
    rw [List.length_drop]
    rcases le_or_lt l.length B with h | h
    · have h2 : l.length - B = 0 := Nat.sub_eq_zero_of_le h
      have h1 : (l.length + B - 1) / B = 1 := by
        apply Nat.div_eq_of_lt_le <;> omega
      have h0 : (l.length - B + B - 1) / B = 0 := by
        apply Nat.div_eq_of_lt
        omega
      rw [h1, h0]
    · have h3 : l.length + B - 1 = (l.length - B + B - 1) + B := by omega
      rw [h3, Nat.add_div_right _ hB]
  rw [chunkBatches, chunkBatches, hc, List.range_succ_eq_map, List.map_cons, List.map_map]
  congr 1
  · simp
  · apply List.map_congr_left
    intro k _
    have h4 : Nat.succ k * B = k * B + B := Nat.succ_mul k B
    simp only [Function.comp_apply, h4, List.drop_drop]
    rw [Nat.add_comm]

theorem directoryWorkerRun_fileBatches_eq (repositoryId : String) (path : List String)
    (fetchResult : Except String (List GitHubContent)) (dirTx : Option String)
    (B : Nat) (txOracle : Nat → Option String) (nid : Nat) :
    (directoryWorkerRun repositoryId path fetchResult dirTx B txOracle nid).fileBatches =
      (directoryWorkerBody repositoryId path fetchResult dirTx B txOracle nid).fileBatches := by
  simp only [directoryWorkerRun]
  split <;> rfl

theorem directoryWorkerBody_fileBatches_none (repositoryId : String) (path : List String)
    (items : List GitHubContent) (B : Nat) (txOracle : Nat → Option String) (nid : Nat) :
    (directoryWorkerBody repositoryId path (.ok items) none B txOracle nid).fileBatches =
      (processFilesInBatches repositoryId path
        (workerDirectoryId
          (buildDirectoryMap (workerDirectoryData repositoryId nid (workerDirectories items)))
          (workerFiles items))
        B txOracle (workerFiles items)
        (nid + (workerDirectoryData repositoryId nid (workerDirectories items)).length)).committed := by
  simp only [directoryWorkerBody]
  split <;> rfl

theorem runBatches_committed_directoryId (repositoryId : String) (cp : List String)
    (did : Option Nat) (total : Nat) (txOracle : Nat → Option String) :
    ∀ (bs : List (List GitHubContent)) (i nid : Nat),
      ∀ r ∈ (runBatches repositoryId cp did total txOracle i nid bs).committed.flatten,
        r.directoryId = did := by
  intro bs
  induction bs with
  | nil =>
    intro i nid r hr
    simp [runBatches] at hr
  | cons b bs ih =>
    intro i nid r hr
    unfold runBatches at hr
    cases h : txOracle i with
    | some e => rw [h] at hr; simp at hr
    | none =>
      rw [h] at hr
      simp only [List.flatten_cons, List.mem_append] at hr
      rcases hr with h1 | h2
      · simp only [mkFileRows, List.mem_map] at h1
        obtain ⟨p, _, rfl⟩ := h1
        rfl
      · exact ih (i + 1) (nid + b.length) r h2

theorem processFilesInBatches_committed_directoryId (repositoryId : String)
    (cp : List String) (did : Option Nat) (B : Nat) (txOracle : Nat → Option String)
    (files : List GitHubContent) (nid : Nat) :
    ∀ r ∈ (processFilesInBatches repositoryId cp did B txOracle files nid).committed.flatten,
      r.directoryId = did := by
  intro r hr
  unfold processFilesInBatches at hr
  exact runBatches_committed_directoryId repositoryId cp did _ txOracle _ 0 nid r hr

theorem mem_buildDirectoryMap (rows : List DirectoryRow) (e : List String × DirectoryRow)
    (he : e ∈ buildDirectoryMap rows) : ∃ d ∈ rows, e = (d.path, d) := by
  suffices h : ∀ init : List (List String × DirectoryRow),
      e ∈ rows.foldl (fun m d => (d.path, d) :: m) init →
        e ∈ init ∨ ∃ d ∈ rows, e = (d.path, d) by
    rcases h [] he with h0 | h1
    · simp at h0
    · exact h1
  clear he
  induction rows with
  | nil => intro init he; exact .inl he
  | cons d rest ih =>
    intro init he
    rcases ih ((d.path, d) :: init) he with h0 | h1
    · rcases List.mem_cons.mp h0 with h2 | h3
      · exact .inr ⟨d, by simp, h2⟩
      · exact .inl h3
    · obtain ⟨d2, hd2, he2⟩ := h1
      exact .inr ⟨d2, by simp [hd2], he2⟩

theorem lookupRow_eq_none (m : List (List String × DirectoryRow)) (k : List String)
    (h : ∀ e ∈ m, e.1 ≠ k) : lookupRow m k = none := by
  unfold lookupRow
  rw [List.find?_eq_none.mpr]
  · rfl
  · intro e he
    simpa using h e he

theorem workerDirectoryData_path (repositoryId : String) (nid : Nat)
    (directories : List GitHubContent) :
    ∀ d ∈ workerDirectoryData repositoryId nid directories,
      ∃ it ∈ directories, d.path = it.path := by
  intro d hd
  simp only [workerDirectoryData, List.mem_map] at hd
  obtain ⟨p, hp, rfl⟩ := hd
  exact ⟨p.2, List.snd_mem_of_mem_enum hp, rfl⟩

theorem directoryWorkerBody_result_none (repositoryId : String) (path : List String)
    (items : List GitHubContent) (B : Nat) (txOracle : Nat → Option String) (nid : Nat) :
    (directoryWorkerBody repositoryId path (.ok items) none B txOracle nid).result =
      Except.map (fun _ => items.length)
        (processFilesInBatches repositoryId path
          (workerDirectoryId
            (buildDirectoryMap (workerDirectoryData repositoryId nid (workerDirectories items)))
            (workerFiles items))
          B txOracle (workerFiles items)
          (nid + (workerDirectoryData repositoryId nid (workerDirectories items)).length)).result := by
  simp only [directoryWorkerBody]
  split <;> rename_i x heq <;> rw [heq] <;> rfl

theorem directoryWorkerRun_error_behavior (repositoryId : String) (path : List String)
    (fetchResult : Except String (List GitHubContent)) (dirTx : Option String)
    (B : Nat) (txOracle : Nat → Option String) (nid : Nat) (e : String)
    (h : (directoryWorkerBody repositoryId path fetchResult dirTx B txOracle nid).result =
      .error e) :
    (directoryWorkerRun repositoryId path fetchResult dirTx B txOracle nid).statusWrite =
      some .FAILED ∧
    (directoryWorkerRun repositoryId path fetchResult dirTx B txOracle nid).updates.getLast? =
      some ⟨.FAILED, .failedDirectory path⟩ ∧
    (directoryWorkerRun repositoryId path fetchResult dirTx B txOracle nid).outcome =
      JobOutcome.completed := by
  simp only [directoryWorkerRun, h]
  exact ⟨trivial, ⟨List.getLast?_concat _, trivial⟩⟩

/-! ## C1 -/

/-- **C1.** On every successful job completion, the `completed` hook
atomically decrements the run's pending-jobs counter obtaining the
post-decrement value `v`, then reads the run status, and transitions it to
SUCCESS emitting the SUCCESS progress update **iff** `v = 0` and the status
read is PROCESSING; in every other case it performs no state transition and
emits nothing. -/
theorem c1_success_transition (counter : Int) (status : RepositoryStatus) :
    (onCompletedHandler counter status).counter = counter - 1 ∧
    (((onCompletedHandler counter status).status = .SUCCESS ∧
      (onCompletedHandler counter status).updates =
        [⟨.SUCCESS, .allProcessed⟩]) ↔
        (counter - 1 = 0 ∧ status = .PROCESSING)) ∧
    (¬(counter - 1 = 0 ∧ status = .PROCESSING) →
      (onCompletedHandler counter status).status = status ∧
      (onCompletedHandler counter status).updates = []) := by
  by_cases h : counter - 1 = 0 ∧ status = RepositoryStatus.PROCESSING
  · simp [onCompletedHandler, h]
  · simp [onCompletedHandler, h]

/-- Witness for C1 at a concrete input. -/
theorem c1_success_transition_witness :
    (onCompletedHandler 1 .PROCESSING).counter = 1 - 1 ∧
    (((onCompletedHandler 1 .PROCESSING).status = .SUCCESS ∧
      (onCompletedHandler 1 .PROCESSING).updates =
        [⟨.SUCCESS, .allProcessed⟩]) ↔
        ((1 : Int) - 1 = 0 ∧ RepositoryStatus.PROCESSING = .PROCESSING)) ∧
    (¬((1 : Int) - 1 = 0 ∧ RepositoryStatus.PROCESSING = .PROCESSING) →
      (onCompletedHandler 1 .PROCESSING).status = .PROCESSING ∧
      (onCompletedHandler 1 .PROCESSING).updates = []) :=
  c1_success_transition 1 .PROCESSING

/-! ## C2 -/

/-- **C2, counterexample.**  The claim says a job whose steps 1-6 error
finishes as *failed* (firing the queue's failure event, so the counter is
never decremented for it).  At a concrete failing fetch the processor
resolves normally — the catch block of lines 97-115 does not rethrow — so
the job's outcome is `completed`, not `failed`, and the `completed` hook
then decrements the counter (here from 1 to 0) for this failed job. -/
theorem c2_counterexample :
    (directoryWorkerRun "r" ["src"] (.error "boom") none 100 (fun _ => none) 0).outcome =
      JobOutcome.completed ∧
    (directoryWorkerRun "r" ["src"] (.error "boom") none 100 (fun _ => none) 0).outcome ≠
      JobOutcome.failed ∧
    (onCompletedHandler 1 RepositoryStatus.FAILED).counter = 0 := by
  refine ⟨rfl, by decide, by decide⟩

/-- **C2, amended.**  For every execution in which any of the modelled
steps 1-6 raises an error, the worker sets `Run.status = FAILED` and emits a
FAILED progress update as the last update — but the error is swallowed by
the catch block, so the job finishes through the queue's *completion* event
(outcome `completed`, never `failed`), and the `completed` hook therefore
still decrements the PendingWorkCounter for the failed job. -/
theorem c2_amended (repositoryId : String) (path : List String)
    (fetchResult : Except String (List GitHubContent)) (dirTx : Option String)
    (B : Nat) (txOracle : Nat → Option String) (nid : Nat) (e : String)
    (h : (directoryWorkerBody repositoryId path fetchResult dirTx B txOracle nid).result =
      .error e) :
    (directoryWorkerRun repositoryId path fetchResult dirTx B txOracle nid).statusWrite =
      some .FAILED ∧
    (directoryWorkerRun repositoryId path fetchResult dirTx B txOracle nid).updates.getLast? =
      some ⟨.FAILED, .failedDirectory path⟩ ∧
    (directoryWorkerRun repositoryId path fetchResult dirTx B txOracle nid).outcome =
      JobOutcome.completed ∧
    ∀ (c : Int) (st : RepositoryStatus), (onCompletedHandler c st).counter = c - 1 := by
  obtain ⟨h1, h2, h3⟩ :=
    directoryWorkerRun_error_behavior repositoryId path fetchResult dirTx B txOracle nid e h
  refine ⟨h1, h2, h3, ?_⟩
  intro c st
  by_cases hc : c - 1 = 0 ∧ st = RepositoryStatus.PROCESSING
  · simp [onCompletedHandler, hc]
  · simp [onCompletedHandler, hc]

/-- Witness for C2's amended theorem at a concrete failing fetch. -/
theorem c2_amended_witness :
    (directoryWorkerBody "r" ["src"] (.error "boom") none 100 (fun _ => none) 0).result =
      .error "boom" ∧
    (directoryWorkerRun "r" ["src"] (.error "boom") none 100 (fun _ => none) 0).statusWrite =
      some .FAILED :=
  ⟨rfl, (c2_amended "r" ["src"] (.error "boom") none 100 (fun _ => none) 0 "boom" rfl).1⟩

/-! ## C3 -/

/-- **C3 (code bug).**  The claim (and the spec's design intent) says each
persisted subdirectory's parent reference equals the id of the row whose
path is the current job's path, null only at the run root.  Evaluating the
worker at the failing input — a job at the non-root path `["src"]`
discovering the subdirectory `["src","utils"]` — the created row's
`parentId` is `none`: the lookups of lines 42-49 run against the
still-empty `directoryMap` (it is only populated at lines 57-60, after the
transaction), so no subdirectory ever receives a parent reference. -/
theorem c3_parent_reference_failing_input :
    (directoryWorkerRun "r" ["src"]
        (.ok [⟨["src", "utils"], "utils", .dir, none⟩]) none 100 (fun _ => none) 0).dirRows =
      [{ id := 0, path := ["src", "utils"], repositoryId := "r", parentId := none }] ∧
    (["src"] : List String) ≠ [] := by
  refine ⟨by decide, by decide⟩

/-! ## C4 -/

/-- **C4, counterexample.**  The claim says each persisted `FileNode`
carries the id of the previously persisted row for its containing
directory, null only at the run root.  At a job for the non-root path
`["src"]` with one file `["src","a"]`, the persisted file row's
`directoryId` is `none` although `["src"]` is not the run root. -/
theorem c4_counterexample :
    ((directoryWorkerRun "r" ["src"]
        (.ok [⟨["src", "a"], "a", .file, some "txt"⟩]) none 100
        (fun _ => none) 0).fileBatches.flatten.map (·.directoryId)) = [none] ∧
    (["src"] : List String) ≠ [] := by
  refine ⟨by decide, by decide⟩

/-- The line-66 lookup always misses: the map holds only this job's created
subdirectory rows, never the row for the job's own directory. -/
theorem workerDirectoryId_none (repositoryId : String) (path : List String)
    (items : List GitHubContent) (nid : Nat)
    (hwf : ∀ it ∈ items, it.path = path ++ [it.name]) :
    workerDirectoryId
      (buildDirectoryMap (workerDirectoryData repositoryId nid (workerDirectories items)))
      (workerFiles items) = none := by
  unfold workerDirectoryId
  rw [lookupRow_eq_none]
  · rfl
  · intro ent hent
    obtain ⟨d, hd, rfl⟩ := mem_buildDirectoryMap _ _ hent
    obtain ⟨it, hit, hpath⟩ := workerDirectoryData_path _ _ _ d hd
    have hit2 : it ∈ items := (List.mem_filter.mp hit).1
    have h1 : d.path = path ++ [it.name] := hpath.trans (hwf it hit2)
    cases hh : (workerFiles items).head? with
    | none =>
      simp only [dirPathOf, hh]
      rw [h1]
      simp
    | some f0 =>
      have hf0 : f0 ∈ workerFiles items := List.mem_of_mem_head? hh
      have hf0i : f0 ∈ items := (List.mem_filter.mp hf0).1
      simp only [dirPathOf, hh]
      rw [h1, hwf f0 hf0i, List.dropLast_concat]
      intro hcontra
      have h2 := congrArg List.length hcontra
      simp at h2

/-- **C4, amended.**  The `directoryId` attached to every persisted
`FileNode` is always `none`: the lookup of line 66 consults a map populated
only with the rows this same job just created for its *subdirectories*
(paths strictly below the job's own path), which can never contain the row
for the job's own directory, so the lookup always misses — at the root and
at every level below it. -/
theorem c4_directory_reference_always_none (repositoryId : String) (path : List String)
    (items : List GitHubContent) (dirTx : Option String) (B : Nat)
    (txOracle : Nat → Option String) (nid : Nat)
    (hwf : ∀ it ∈ items, it.path = path ++ [it.name]) :
    ∀ f ∈ (directoryWorkerRun repositoryId path (.ok items) dirTx B txOracle
        nid).fileBatches.flatten,
      f.directoryId = none := by
  intro f hf
  rw [directoryWorkerRun_fileBatches_eq] at hf
  cases dirTx with
  | some e =>
    simp only [directoryWorkerBody] at hf
    simp at hf
  | none =>
    rw [directoryWorkerBody_fileBatches_none,
      workerDirectoryId_none repositoryId path items nid hwf] at hf
    exact processFilesInBatches_committed_directoryId _ _ _ _ _ _ _ f hf

/-- Witness for C4's amended theorem at a concrete non-root job. -/
theorem c4_directory_reference_always_none_witness :
    (∀ it ∈ [(⟨["src", "a"], "a", .file, some "txt"⟩ : GitHubContent)],
      it.path = ["src"] ++ [it.name]) ∧
    ∀ f ∈ (directoryWorkerRun "r" ["src"]
        (.ok [⟨["src", "a"], "a", .file, some "txt"⟩]) none 100
        (fun _ => none) 0).fileBatches.flatten,
      f.directoryId = none :=
  ⟨by decide,
    c4_directory_reference_always_none "r" ["src"]
      [⟨["src", "a"], "a", .file, some "txt"⟩] none 100 (fun _ => none) 0 (by decide)⟩

theorem chunkBatches_flatten (B : Nat) (hB : 0 < B) (l : List GitHubContent) :
    (chunkBatches B l).flatten = l := by
  suffices h : ∀ (n : Nat) (l : List GitHubContent), l.length ≤ n →
      (chunkBatches B l).flatten = l from h l.length l le_rfl
  intro n
  induction n with
  | zero =>
    intro l hl
    have h0 : l = [] := List.length_eq_zero.mp (Nat.le_zero.mp hl)
    subst h0
    rw [chunkBatches_nil]
    rfl
  | succ n ih =>
    intro l hl
    by_cases hni : l = []
    · subst hni
      rw [chunkBatches_nil]
      rfl
    · rw [chunkBatches_cons B hB l hni, List.flatten_cons,
        ih (l.drop B) (by rw [List.length_drop]; have := List.length_pos.mpr hni; omega)]
      exact List.take_append_drop B l

theorem chunkBatches_length (B : Nat) (l : List GitHubContent) :
    (chunkBatches B l).length = (l.length + B - 1) / B := by
  simp [chunkBatches]

theorem chunkBatches_size_le (B : Nat) (l : List GitHubContent) :
    ∀ (k : Nat) (hk : k < (chunkBatches B l).length),
      ((chunkBatches B l).get ⟨k, hk⟩).length ≤ B := by
  intro k hk
  simp only [chunkBatches, List.get_eq_getElem, List.getElem_map, List.getElem_range,
    List.length_take]
  omega

theorem chunkBatches_size_eq (B : Nat) (hB : 0 < B) (l : List GitHubContent) :
    ∀ (k : Nat) (hk : k < (chunkBatches B l).length),
      k + 1 < (chunkBatches B l).length → ((chunkBatches B l).get ⟨k, hk⟩).length = B := by
  suffices h : ∀ (n : Nat) (l : List GitHubContent), l.length ≤ n →
      ∀ (k : Nat) (hk : k < (chunkBatches B l).length),
        k + 1 < (chunkBatches B l).length →
          ((chunkBatches B l).get ⟨k, hk⟩).length = B from h l.length l le_rfl
  intro n
  induction n with
  | zero =>
    intro l hl k hk _
    have h0 : l = [] := List.length_eq_zero.mp (Nat.le_zero.mp hl)
    subst h0
    rw [chunkBatches_nil] at hk
    exact absurd hk (by simp)
  | succ n ih =>
    intro l hl k hk hk1
    by_cases hni : l = []
    · subst hni
      rw [chunkBatches_nil] at hk
      exact absurd hk (by simp)
    · have hcons := chunkBatches_cons B hB l hni
      cases k with
      | zero =>
        -- the head chunk `l.take B` is not the last, so the tail is nonempty
        have htail : chunkBatches B (l.drop B) ≠ [] := by
          intro hemp
          rw [hcons, hemp] at hk1
          simp at hk1
        have hdrop : l.drop B ≠ [] := by
          intro hde
          rw [hde, chunkBatches_nil] at htail
          exact htail rfl
        have hlen : B < l.length := by
          by_contra hle
          exact hdrop (List.drop_eq_nil_of_le (by omega))
        simp only [hcons, List.get_eq_getElem, List.getElem_cons_zero, List.length_take]
        omega
      | succ k =>
        have hk2 : k < (chunkBatches B (l.drop B)).length := by
          have hk3 := hk
          rw [hcons] at hk3
          simpa using Nat.lt_of_succ_lt_succ hk3
        have := ih (l.drop B)
          (by rw [List.length_drop]; have := List.length_pos.mpr hni; omega) k hk2
          (by rw [hcons] at hk1; simpa using hk1)
        simp only [hcons, List.get_eq_getElem, List.getElem_cons_succ]
        simpa using this

theorem runBatches_ok_spec (repositoryId : String) (cp : List String)
    (did : Option Nat) (total : Nat) (txOracle : Nat → Option String)
    (h : ∀ j, txOracle j = none) :
    ∀ (bs : List (List GitHubContent)) (i nid : Nat),
      (runBatches repositoryId cp did total txOracle i nid bs).result = .ok 0 ∧
      (runBatches repositoryId cp did total txOracle i nid bs).committed.length = bs.length ∧
      (runBatches repositoryId cp did total txOracle i nid bs).updates.countP isSavedBatch =
        bs.length ∧
      ((runBatches repositoryId cp did total txOracle i nid bs).committed.map
        List.length = bs.map List.length) ∧
      ∀ (k : Nat) (hk : k < bs.length),
        (⟨.PROCESSING, .savedBatch (i + k + 1) total (bs.get ⟨k, hk⟩).length cp⟩ :
            ProgressUpdate) ∈
          (runBatches repositoryId cp did total txOracle i nid bs).updates := by
  intro bs
  induction bs with
  | nil =>
    intro i nid
    refine ⟨rfl, rfl, rfl, rfl, ?_⟩
    intro k hk
    exact absurd hk (by simp)
  | cons b bs ih =>
    intro i nid
    obtain ⟨h1, h2, h3, h3m, h4⟩ := ih (i + 1) (nid + b.length)
    unfold runBatches
    rw [h i]
    refine ⟨h1, by simpa using h2, ?_, ?_, ?_⟩
    · simp only [List.countP_cons]
      rw [h3]
      simp [isSavedBatch]
    · simp only [List.map_cons, h3m, List.cons.injEq, and_true]
      simp [mkFileRows]
    · intro k hk
      cases k with
      | zero => exact List.mem_cons_self _ _
      | succ k =>
        apply List.mem_cons_of_mem
        have h5 := h4 k (by simpa using hk)
        have h6 : i + 1 + k + 1 = i + (k + 1) + 1 := by omega
        rw [h6] at h5
        simpa using h5

theorem runBatches_fail_spec (repositoryId : String) (cp : List String)
    (did : Option Nat) (total : Nat) (txOracle : Nat → Option String) :
    ∀ (bs : List (List GitHubContent)) (i nid k : Nat) (e : String),
      txOracle (i + k) = some e → (∀ j, j < k → txOracle (i + j) = none) →
      k < bs.length →
      (runBatches repositoryId cp did total txOracle i nid bs).result = .error e ∧
      (runBatches repositoryId cp did total txOracle i nid bs).committed.length = k ∧
      (runBatches repositoryId cp did total txOracle i nid bs).updates.countP isSavedBatch =
        k := by
  intro bs
  induction bs with
  | nil =>
    intro i nid k e _ _ hk
    exact absurd hk (by simp)
  | cons b bs ih =>
    intro i nid k e h1 h2 hk
    unfold runBatches
    cases k with
    | zero =>
      rw [show i + 0 = i from rfl] at h1
      rw [h1]
      exact ⟨rfl, rfl, rfl⟩
    | succ k =>
      have h0 : txOracle i = none := by
        have := h2 0 (Nat.succ_pos k)
        simpa using this
      rw [h0]
      obtain ⟨r1, r2, r3⟩ := ih (i + 1) (nid + b.length) k e
        (by rw [show i + 1 + k = i + (k + 1) from by omega]; exact h1)
        (fun j hj => by
          rw [show i + 1 + j = i + (j + 1) from by omega]
          exact h2 (j + 1) (by omega))
        (by simpa using hk)
      refine ⟨r1, by simpa using r2, ?_⟩
      simp only [List.countP_cons]
      rw [r3]
      simp [isSavedBatch]

/-! ## C10 -/

/-- **C10.** For every job whose file-persistence phase finishes without
error — regardless of how many other jobs of the run are still outstanding,
and including directories with zero files — `processFilesInBatches` emits as
its final update a message carrying status SUCCESS
(`Finished processing {n} files in {path}`, lines 172-177); and the worker's
success path performs no run-status write at all, so that SUCCESS-status
progress message reaches observers while `Run.status` itself is still
whatever it was (PROCESSING mid-run). -/
theorem c10_success_status_message (repositoryId : String) (cp : List String)
    (did : Option Nat) (B : Nat) (txOracle : Nat → Option String)
    (files : List GitHubContent) (nid : Nat)
    (h : ∀ j, txOracle j = none) :
    (processFilesInBatches repositoryId cp did B txOracle files nid).updates.getLast? =
      some ⟨.SUCCESS, .finishedFiles files.length cp⟩ ∧
    ∀ (rid : String) (p : List String) (items : List GitHubContent) (B2 nid2 : Nat),
      (directoryWorkerRun rid p (.ok items) none B2 (fun _ => none) nid2).statusWrite =
        none := by
  constructor
  · have hres := (runBatches_ok_spec repositoryId cp did
      (chunkBatches B files).length txOracle h (chunkBatches B files) 0 nid).1
    simp only [processFilesInBatches, hres]
    rw [show
      (⟨.PROCESSING, .processingFilesCount files.length cp⟩ : ProgressUpdate) ::
        ((runBatches repositoryId cp did (chunkBatches B files).length txOracle 0 nid
            (chunkBatches B files)).updates ++
          [⟨.SUCCESS, .finishedFiles files.length cp⟩]) =
      ((⟨.PROCESSING, .processingFilesCount files.length cp⟩ : ProgressUpdate) ::
        (runBatches repositoryId cp did (chunkBatches B files).length txOracle 0 nid
            (chunkBatches B files)).updates) ++
        [⟨.SUCCESS, .finishedFiles files.length cp⟩] from by simp]
    exact List.getLast?_concat _
  · intro rid p items B2 nid2
    have hok : (directoryWorkerBody rid p (.ok items) none B2 (fun _ => none) nid2).result =
        .ok items.length := by
      rw [directoryWorkerBody_result_none]
      have hres := (runBatches_ok_spec rid p
        (workerDirectoryId
          (buildDirectoryMap (workerDirectoryData rid nid2 (workerDirectories items)))
          (workerFiles items))
        (chunkBatches B2 (workerFiles items)).length
        (fun _ => none) (fun _ => rfl) (chunkBatches B2 (workerFiles items)) 0
        (nid2 + (workerDirectoryData rid nid2 (workerDirectories items)).length)).1
      simp only [processFilesInBatches, hres]
      rfl
    simp only [directoryWorkerRun, hok]

/-- Witness for C10 at a concrete zero-files job. -/
theorem c10_success_status_message_witness :
    (∀ j : Nat, (fun _ : Nat => (none : Option String)) j = none) ∧
    (processFilesInBatches "r" ["x"] none 100 (fun _ => none) [] 5).updates.getLast? =
      some ⟨.SUCCESS, .finishedFiles 0 ["x"]⟩ :=
  ⟨fun _ => rfl,
    (c10_success_status_message "r" ["x"] none 100 (fun _ => none) [] 5 (fun _ => rfl)).1⟩

/-! ## C6 -/

theorem processFilesInBatches_result_eq (repositoryId : String) (cp : List String)
    (did : Option Nat) (B : Nat) (txOracle : Nat → Option String)
    (files : List GitHubContent) (nid : Nat) :
    (processFilesInBatches repositoryId cp did B txOracle files nid).result =
      (runBatches repositoryId cp did (chunkBatches B files).length txOracle 0 nid
        (chunkBatches B files)).result := rfl

theorem processFilesInBatches_committed_eq (repositoryId : String) (cp : List String)
    (did : Option Nat) (B : Nat) (txOracle : Nat → Option String)
    (files : List GitHubContent) (nid : Nat) :
    (processFilesInBatches repositoryId cp did B txOracle files nid).committed =
      (runBatches repositoryId cp did (chunkBatches B files).length txOracle 0 nid
        (chunkBatches B files)).committed := rfl

theorem processFilesInBatches_countP_eq (repositoryId : String) (cp : List String)
    (did : Option Nat) (B : Nat) (txOracle : Nat → Option String)
    (files : List GitHubContent) (nid : Nat) :
    (processFilesInBatches repositoryId cp did B txOracle files nid).updates.countP
        isSavedBatch =
      (runBatches repositoryId cp did (chunkBatches B files).length txOracle 0 nid
        (chunkBatches B files)).updates.countP isSavedBatch := by
  simp only [processFilesInBatches]
  split <;> simp [List.countP_cons, List.countP_append, isSavedBatch]

/-- **C6.** Given `n` files and a fixed batch size `B > 0`, the batch loop
forms exactly `⌈n/B⌉` chunks which partition the file sequence in order,
each of size `B` except a possibly smaller final chunk; when every
transaction succeeds, each chunk is committed by its own transaction (the
committed chunk sizes equal the planned chunk sizes) with exactly one
`Saved batch (k+1)/total` progress update per chunk; and when the `k`-th
transaction fails, no chunk from the `k`-th on is committed (exactly `k`
chunks were committed, with exactly `k` per-chunk updates emitted), the
error propagates to the caller, and a directory-crawl job whose fetched
items are those files then fails the run (`Run.status` written to FAILED). -/
theorem c6_batch_persistence (repositoryId : String) (cp : List String)
    (did : Option Nat) (B : Nat) (txOracle : Nat → Option String)
    (files : List GitHubContent) (nid : Nat) (hB : 0 < B) :
    (chunkBatches B files).length = (files.length + B - 1) / B ∧
    (chunkBatches B files).flatten = files ∧
    (∀ (k : Nat) (hk : k < (chunkBatches B files).length),
      ((chunkBatches B files).get ⟨k, hk⟩).length ≤ B ∧
      (k + 1 < (chunkBatches B files).length →
        ((chunkBatches B files).get ⟨k, hk⟩).length = B)) ∧
    ((∀ j, txOracle j = none) →
      (processFilesInBatches repositoryId cp did B txOracle files nid).result = .ok 0 ∧
      (processFilesInBatches repositoryId cp did B txOracle files nid).committed.map
          List.length = (chunkBatches B files).map List.length ∧
      (processFilesInBatches repositoryId cp did B txOracle files nid).updates.countP
          isSavedBatch = (chunkBatches B files).length ∧
      ∀ (k : Nat) (hk : k < (chunkBatches B files).length),
        (⟨.PROCESSING, .savedBatch (k + 1) (chunkBatches B files).length
            ((chunkBatches B files).get ⟨k, hk⟩).length cp⟩ : ProgressUpdate) ∈
          (processFilesInBatches repositoryId cp did B txOracle files nid).updates) ∧
    (∀ (k : Nat) (e : String), txOracle k = some e → (∀ j, j < k → txOracle j = none) →
      k < (chunkBatches B files).length →
      (processFilesInBatches repositoryId cp did B txOracle files nid).result = .error e ∧
      (processFilesInBatches repositoryId cp did B txOracle files nid).committed.length =
        k ∧
      (processFilesInBatches repositoryId cp did B txOracle files nid).updates.countP
          isSavedBatch = k ∧
      ((∀ f ∈ files, f.itemType = ItemType.file) →
        (directoryWorkerRun repositoryId cp (.ok files) none B txOracle nid).statusWrite =
          some RepositoryStatus.FAILED)) := by
  refine ⟨chunkBatches_length B files, chunkBatches_flatten B hB files, ?_, ?_, ?_⟩
  · intro k hk
    exact ⟨chunkBatches_size_le B files k hk, chunkBatches_size_eq B hB files k hk⟩
  · intro h
    obtain ⟨h1, _, h3, h3m, h4⟩ := runBatches_ok_spec repositoryId cp did
      (chunkBatches B files).length txOracle h (chunkBatches B files) 0 nid
    refine ⟨h1, ?_, ?_, ?_⟩
    · rw [processFilesInBatches_committed_eq]
      exact h3m
    · rw [processFilesInBatches_countP_eq]
      exact h3
    · intro k hk
      have h5 := h4 k hk
      rw [show 0 + k + 1 = k + 1 from by omega] at h5
      simp only [processFilesInBatches]
      exact List.mem_cons_of_mem _ (List.mem_append_left _ h5)
  · intro k e h1 h2 hk
    obtain ⟨r1, r2, r3⟩ := runBatches_fail_spec repositoryId cp did
      (chunkBatches B files).length txOracle (chunkBatches B files) 0 nid k e
      (by simpa using h1) (fun j hj => by simpa using h2 j hj) hk
    refine ⟨by rw [processFilesInBatches_result_eq]; exact r1,
      by rw [processFilesInBatches_committed_eq]; exact r2,
      by rw [processFilesInBatches_countP_eq]; exact r3, ?_⟩
    intro hfiles
    have hff : workerFiles files = files := by
      apply List.filter_eq_self.mpr
      intro a ha
      simp [workerFiles, hfiles a ha]
    have hbodyerr : (directoryWorkerBody repositoryId cp (.ok files) none B txOracle
        nid).result = .error e := by
      rw [directoryWorkerBody_result_none]
      have hfail := (runBatches_fail_spec repositoryId cp
        (workerDirectoryId
          (buildDirectoryMap (workerDirectoryData repositoryId nid (workerDirectories files)))
          (workerFiles files))
        (chunkBatches B (workerFiles files)).length txOracle
        (chunkBatches B (workerFiles files)) 0
        (nid + (workerDirectoryData repositoryId nid (workerDirectories files)).length) k e
        (by simpa using h1) (fun j hj => by simpa using h2 j hj)
        (by rw [hff]; exact hk)).1
      rw [processFilesInBatches_result_eq, hfail]
      rfl
    exact (directoryWorkerRun_error_behavior repositoryId cp (.ok files) none B txOracle
      nid e hbodyerr).1

/-- Witness for C6: 5 files with batch size 2 — three chunks (2, 2, 1). -/
theorem c6_batch_persistence_witness :
    0 < 2 ∧
    (chunkBatches 2
      [⟨["a"], "a", .file, none⟩, ⟨["b"], "b", .file, none⟩, ⟨["c"], "c", .file, none⟩,
       ⟨["d"], "d", .file, none⟩, ⟨["e"], "e", .file, none⟩]).flatten =
      [⟨["a"], "a", .file, none⟩, ⟨["b"], "b", .file, none⟩, ⟨["c"], "c", .file, none⟩,
       ⟨["d"], "d", .file, none⟩, ⟨["e"], "e", .file, none⟩] :=
  ⟨by decide,
    (c6_batch_persistence "r" [] none 2 (fun _ => none)
      [⟨["a"], "a", .file, none⟩, ⟨["b"], "b", .file, none⟩, ⟨["c"], "c", .file, none⟩,
       ⟨["d"], "d", .file, none⟩, ⟨["e"], "e", .file, none⟩] 0 (by decide)).2.1⟩

/-! ## C5 -/

theorem sublist_singleton_decomp {α : Type} (b : α) :
    ∀ (l : List α), [b].Sublist l → ∃ u v, l = u ++ b :: v := by
  intro l
  induction l with
  | nil => intro h; exact absurd h (by simp)
  | cons x l ih =>
    intro h
    cases h with
    | cons _ h2 =>
      obtain ⟨u, v, rfl⟩ := ih h2
      exact ⟨x :: u, v, rfl⟩
    | cons₂ _ h2 => exact ⟨[], l, rfl⟩

theorem sublist_pair_decomp {α : Type} (a b : α) :
    ∀ (l : List α), [a, b].Sublist l → ∃ t1 t2 t3, l = t1 ++ a :: t2 ++ b :: t3 := by
  intro l
  induction l with
  | nil => intro h; exact absurd h (by simp)
  | cons x l ih =>
    intro h
    cases h with
    | cons _ h2 =>
      obtain ⟨t1, t2, t3, rfl⟩ := ih h2
      exact ⟨x :: t1, t2, t3, rfl⟩
    | cons₂ _ h2 =>
      obtain ⟨u, v, rfl⟩ := sublist_singleton_decomp b l h2
      exact ⟨[], u, v, rfl⟩

theorem mem_enqueueChains_flatten (dirs : List (List String)) (a : QEvent) :
    a ∈ (enqueueChains dirs).flatten ↔
      ∃ d ∈ dirs, a = QEvent.incr d ∨ a = QEvent.enq d := by
  simp only [enqueueChains, List.mem_flatten, List.mem_map]
  constructor
  · rintro ⟨l, ⟨d, hd, rfl⟩, hal⟩
    rcases List.mem_cons.mp hal with h1 | h1
    · exact ⟨d, hd, .inl h1⟩
    · rcases List.mem_cons.mp h1 with h2 | h2
      · exact ⟨d, hd, .inr h2⟩
      · exact absurd h2 (by simp)
  · rintro ⟨d, hd, h1 | h1⟩ <;> exact ⟨_, ⟨d, hd, rfl⟩, by simp [h1]⟩

theorem enqueueChains_flatten_nodup (dirs : List (List String)) (h : dirs.Nodup) :
    (enqueueChains dirs).flatten.Nodup := by
  induction dirs with
  | nil => simp [enqueueChains]
  | cons d ds ih =>
    obtain ⟨hd, hds⟩ := List.nodup_cons.mp h
    simp only [enqueueChains, List.map_cons, List.flatten_cons]
    rw [List.nodup_append]
    refine ⟨by simp, ih hds, ?_⟩
    intro a ha hb
    obtain ⟨d2, hd2, hcase⟩ := (mem_enqueueChains_flatten ds a).mp hb
    rcases List.mem_cons.mp ha with h1 | h1
    · rcases hcase with h2 | h2
      · rw [h1] at h2
        cases h2
        exact hd hd2
      · rw [h1] at h2
        cases h2
    · rcases List.mem_cons.mp h1 with h3 | h3
      · rcases hcase with h2 | h2
        · rw [h3] at h2
          cases h2
        · rw [h3] at h2
          cases h2
          exact hd hd2
      · exact absurd h3 (by simp)

theorem get_at_append {α : Type} (x : α) (B : List α) :
    ∀ (A : List α), (A ++ x :: B).get ⟨A.length, by simp⟩ = x := by
  intro A
  induction A with
  | nil => rfl
  | cons a A ih => simpa using ih

/-- **C5.** In every possible trace of the enqueue loop of lines 71-81 — any
interleaving of the per-subdirectory chains, each performing its counter
increment strictly before its queue add — every enqueue event of a child job
is preceded (strictly earlier in the trace) by that child's counter
increment: a child job is never enqueued whose increment has not already
been applied. -/
theorem c5_increment_before_enqueue (dirs : List (List String)) (hnd : dirs.Nodup)
    (tr : List QEvent) (htr : IsLoopTrace dirs tr) :
    ∀ (j : Nat) (hj : j < tr.length) (d : List String),
      tr.get ⟨j, hj⟩ = QEvent.enq d → QEvent.incr d ∈ tr.take j := by
  intro j hj d hget
  obtain ⟨hperm, hsub⟩ := htr
  have htrnd : tr.Nodup := hperm.nodup_iff.mpr (enqueueChains_flatten_nodup dirs hnd)
  have hmem : QEvent.enq d ∈ tr := hget ▸ List.get_mem tr _ _
  have hd : d ∈ dirs := by
    obtain ⟨d2, hd2, hc⟩ := (mem_enqueueChains_flatten dirs _).mp (hperm.mem_iff.mp hmem)
    rcases hc with h1 | h1
    · cases h1
    · cases h1
      exact hd2
  obtain ⟨t1, t2, t3, heq⟩ := sublist_pair_decomp (QEvent.incr d) (QEvent.enq d) tr
    (hsub d hd)
  have heq2 : tr = (t1 ++ QEvent.incr d :: t2) ++ QEvent.enq d :: t3 := by
    rw [heq, List.append_assoc]
  clear heq hmem hsub hperm
  subst heq2
  have hA : (t1 ++ QEvent.incr d :: t2).length <
      ((t1 ++ QEvent.incr d :: t2) ++ QEvent.enq d :: t3).length := by
    simp
  have hgetA : ((t1 ++ QEvent.incr d :: t2) ++ QEvent.enq d :: t3).get
      ⟨(t1 ++ QEvent.incr d :: t2).length, hA⟩ = QEvent.enq d :=
    get_at_append (QEvent.enq d) t3 (t1 ++ QEvent.incr d :: t2)
  have hjeq : j = (t1 ++ QEvent.incr d :: t2).length := by
    have h7 := (htrnd.get_inj_iff).mp (hget.trans hgetA.symm)
    exact congrArg Fin.val h7
  rw [hjeq, List.take_left]
  simp

/-- Witness for C5 at a concrete two-subdirectory interleaved trace. -/
theorem c5_increment_before_enqueue_witness :
    ([["a"], ["b"]] : List (List String)).Nodup ∧
    IsLoopTrace [["a"], ["b"]]
      [QEvent.incr ["a"], QEvent.incr ["b"], QEvent.enq ["a"], QEvent.enq ["b"]] ∧
    QEvent.incr ["a"] ∈
      [QEvent.incr ["a"], QEvent.incr ["b"], QEvent.enq ["a"], QEvent.enq ["b"]].take 2 := by
  have hnd : ([["a"], ["b"]] : List (List String)).Nodup := by decide
  have htr : IsLoopTrace [["a"], ["b"]]
      [QEvent.incr ["a"], QEvent.incr ["b"], QEvent.enq ["a"], QEvent.enq ["b"]] := by
    constructor
    · decide
    · decide
  refine ⟨hnd, htr, ?_⟩
  exact c5_increment_before_enqueue [["a"], ["b"]] hnd
    [QEvent.incr ["a"], QEvent.incr ["b"], QEvent.enq ["a"], QEvent.enq ["b"]] htr
    2 (by decide) ["a"] (by decide)

/-! ## C7 and C8: protocol invariants -/

/-- Inductive invariant of the run protocol: the counter equals the number
of jobs enqueued-or-about-to-be-enqueued and not yet decremented; the status
never returns to PENDING; and once a decrement has observed zero (or the
SUCCESS transition has fired) there is no queued, running, finished-pending
or to-be-enqueued work left. -/
def SysInv (s : Sys) : Prop :=
  s.counter = (s.queued : Int) + s.running + s.done + s.toEnqueue ∧
  s.status ≠ .PENDING ∧
  ((0 ∈ s.handlers ∨ s.status = .SUCCESS) →
    s.queued = 0 ∧ s.running = 0 ∧ s.done = 0 ∧ s.toEnqueue = 0)

theorem sysInv_init : SysInv sysInit := by
  refine ⟨by simp [sysInit], by simp [sysInit], ?_⟩
  intro h
  rcases h with h | h <;> simp [sysInit] at h

theorem sysInv_step (s s' : Sys) (h : SysInv s) (hs : SysStep s s') : SysInv s' := by
  obtain ⟨h1, h2, h3⟩ := h
  cases hs with
  | start h4 =>
    refine ⟨by simp only; omega, h2, ?_⟩
    intro hl
    exact absurd (h3 hl).1 (by omega)
  | spawnIncr h4 =>
    refine ⟨by simp only; omega, h2, ?_⟩
    intro hl
    exact absurd (h3 hl).2.1 (by omega)
  | spawnEnqueue h4 =>
    refine ⟨by simp only; omega, h2, ?_⟩
    intro hl
    exact absurd (h3 hl).2.2.2 (by omega)
  | failSet h4 =>
    refine ⟨h1, by simp, ?_⟩
    intro hl
    rcases hl with hl | hl
    · exact absurd (h3 (.inl hl)).2.1 (by omega)
    · simp at hl
  | finish h4 =>
    refine ⟨by simp only; omega, h2, ?_⟩
    intro hl
    exact absurd (h3 hl).2.1 (by omega)
  | handlerDecr h4 =>
    refine ⟨by simp only; omega, h2, ?_⟩
    intro hl
    have hcase : s.counter - 1 = 0 ∨ (0 ∈ s.handlers ∨ s.status = .SUCCESS) := by
      rcases hl with hl | hl
      · rcases List.mem_cons.mp hl with hl2 | hl2
        · exact .inl hl2.symm
        · exact .inr (.inl hl2)
      · exact .inr (.inr hl)
    rcases hcase with hc | hc
    · simp only
      omega
    · exact absurd (h3 hc).2.2.1 (by omega)
  | handlerCheck v h4 =>
    by_cases hc : v = 0 ∧ s.status = RepositoryStatus.PROCESSING
    · have hz : (0 : Int) ∈ s.handlers := by rw [← hc.1]; exact h4
      have hcomp := h3 (.inl hz)
      refine ⟨h1, by simp [hc], ?_⟩
      intro _
      exact hcomp
    · refine ⟨h1, by simp only [if_neg hc]; exact h2, ?_⟩
      intro hl
      simp only [if_neg hc] at hl
      rcases hl with hl | hl
      · exact h3 (.inl (List.mem_of_mem_erase hl))
      · exact h3 (.inr hl)

theorem sysInv_reachable (s : Sys) (h : SysReachable s) : SysInv s := by
  unfold SysReachable at h
  induction h with
  | refl => exact sysInv_init
  | tail _ h2 ih => exact sysInv_step _ _ ih h2

/-- A status other than PROCESSING can never become PROCESSING again:
no operation of the protocol writes PROCESSING. -/
theorem status_not_processing_stable (s s' : Sys) (hs : SysStep s s')
    (h : s.status ≠ .PROCESSING) : s'.status ≠ .PROCESSING := by
  cases hs with
  | start _ => exact h
  | spawnIncr _ => exact h
  | spawnEnqueue _ => exact h
  | failSet _ => simp
  | finish _ => exact h
  | handlerDecr _ => exact h
  | handlerCheck v h4 =>
    by_cases hc : v = 0 ∧ s.status = RepositoryStatus.PROCESSING
    · exact absurd hc.2 h
    · simpa only [if_neg hc] using h

theorem status_not_processing_stable_rtg (s s' : Sys)
    (h : Relation.ReflTransGen SysStep s s') (hns : s.status ≠ .PROCESSING) :
    s'.status ≠ .PROCESSING := by
  induction h with
  | refl => exact hns
  | tail _ h2 ih => exact status_not_processing_stable _ _ h2 ih

/-- **C7.** Along every reachable step of the run protocol, the status
either stays what it is or moves from PROCESSING into a terminal state:
SUCCESS and FAILED are terminal (no step — including the worker's failure
handling and the completion handler — ever leaves them), and every actual
change of status starts from PROCESSING and lands in SUCCESS or FAILED. -/
theorem c7_status_transitions (s s' : Sys) (hr : SysReachable s) (hs : SysStep s s') :
    (s.status = .SUCCESS → s'.status = .SUCCESS) ∧
    (s.status = .FAILED → s'.status = .FAILED) ∧
    (s'.status ≠ s.status →
      s.status = .PROCESSING ∧ (s'.status = .SUCCESS ∨ s'.status = .FAILED)) := by
  obtain ⟨h1, h2, h3⟩ := sysInv_reachable s hr
  cases hs with
  | start h4 => exact ⟨fun h => h, fun h => h, fun h => absurd rfl h⟩
  | spawnIncr h4 => exact ⟨fun h => h, fun h => h, fun h => absurd rfl h⟩
  | spawnEnqueue h4 => exact ⟨fun h => h, fun h => h, fun h => absurd rfl h⟩
  | finish h4 => exact ⟨fun h => h, fun h => h, fun h => absurd rfl h⟩
  | handlerDecr h4 => exact ⟨fun h => h, fun h => h, fun h => absurd rfl h⟩
  | failSet h4 =>
    refine ⟨fun h => absurd (h3 (.inr h)).2.1 (by omega), fun _ => rfl, fun hne => ?_⟩
    cases hst : s.status with
    | PENDING => exact absurd hst h2
    | PROCESSING => exact ⟨rfl, .inr rfl⟩
    | SUCCESS => exact absurd (h3 (.inr hst)).2.1 (by omega)
    | FAILED => rw [hst] at hne; exact absurd rfl hne
  | handlerCheck v h4 =>
    by_cases hc : v = 0 ∧ s.status = RepositoryStatus.PROCESSING
    · refine ⟨fun h => by simp [hc], fun h => ?_, fun _ => ?_⟩
      · rw [h] at hc
        exact absurd hc.2 (by simp)
      · exact ⟨hc.2, .inl (by simp [hc])⟩
    · simp only [if_neg hc]
      exact ⟨fun h => h, fun h => h, fun h => absurd rfl h⟩

/-- Witness for C7: the initial state taking the `start` step. -/
theorem c7_status_transitions_witness :
    (sysInit.status = .SUCCESS →
      (⟨1, .PROCESSING, 0, 1, 0, 0, []⟩ : Sys).status = .SUCCESS) ∧
    (sysInit.status = .FAILED →
      (⟨1, .PROCESSING, 0, 1, 0, 0, []⟩ : Sys).status = .FAILED) ∧
    ((⟨1, .PROCESSING, 0, 1, 0, 0, []⟩ : Sys).status ≠ sysInit.status →
      sysInit.status = .PROCESSING ∧
      ((⟨1, .PROCESSING, 0, 1, 0, 0, []⟩ : Sys).status = .SUCCESS ∨
        (⟨1, .PROCESSING, 0, 1, 0, 0, []⟩ : Sys).status = .FAILED)) :=
  c7_status_transitions sysInit ⟨1, .PROCESSING, 0, 1, 0, 0, []⟩
    Relation.ReflTransGen.refl (SysStep.start sysInit (by decide))

/-- **C8.** For every run whose counter is initialized correctly before the
root job (the initial protocol state), the pending-jobs counter is
non-negative in every reachable state; and the zero-observing decrement
fires the SUCCESS transition at most once in the run's lifetime: after any
step that moves the status from PROCESSING to SUCCESS, no later step can
move a status from PROCESSING to SUCCESS again, because the status is never
PROCESSING again. -/
theorem c8_counter_nonneg_success_once :
    (∀ s : Sys, SysReachable s → 0 ≤ s.counter) ∧
    (∀ s s' : Sys, SysReachable s → SysStep s s' →
      s.status = .PROCESSING → s'.status = .SUCCESS →
      ∀ t t' : Sys, Relation.ReflTransGen SysStep s' t → SysStep t t' →
        ¬(t.status = .PROCESSING ∧ t'.status = .SUCCESS)) := by
  constructor
  · intro s hr
    rw [(sysInv_reachable s hr).1]
    omega
  · intro s s' _ _ _ hfire t t' hrt _ hc
    have hnp : t.status ≠ .PROCESSING :=
      status_not_processing_stable_rtg s' t hrt (by rw [hfire]; simp)
    exact hnp hc.1

/-- Witness for C8: the counter at the initial state, and the concrete
four-step trace `start; finish; handlerDecr; handlerCheck 0` that fires the
SUCCESS transition, after which no further firing is possible. -/
theorem c8_counter_nonneg_success_once_witness :
    0 ≤ sysInit.counter ∧
    ∀ t t' : Sys,
      Relation.ReflTransGen SysStep (⟨0, .SUCCESS, 0, 0, 0, 0, []⟩ : Sys) t →
      SysStep t t' → ¬(t.status = .PROCESSING ∧ t'.status = .SUCCESS) := by
  have t1 : SysStep sysInit ⟨1, .PROCESSING, 0, 1, 0, 0, []⟩ :=
    SysStep.start sysInit (by decide)
  have t2 : SysStep (⟨1, .PROCESSING, 0, 1, 0, 0, []⟩ : Sys)
      ⟨1, .PROCESSING, 0, 0, 1, 0, []⟩ :=
    SysStep.finish ⟨1, .PROCESSING, 0, 1, 0, 0, []⟩ (by decide)
  have t3 : SysStep (⟨1, .PROCESSING, 0, 0, 1, 0, []⟩ : Sys)
      ⟨0, .PROCESSING, 0, 0, 0, 0, [0]⟩ :=
    SysStep.handlerDecr ⟨1, .PROCESSING, 0, 0, 1, 0, []⟩ (by decide)
  have t4 : SysStep (⟨0, .PROCESSING, 0, 0, 0, 0, [0]⟩ : Sys)
      ⟨0, .SUCCESS, 0, 0, 0, 0, []⟩ :=
    SysStep.handlerCheck ⟨0, .PROCESSING, 0, 0, 0, 0, [0]⟩ 0 (by simp)
  have hreach : SysReachable ⟨0, .PROCESSING, 0, 0, 0, 0, [0]⟩ :=
    ((Relation.ReflTransGen.refl.tail t1).tail t2).tail t3
  exact ⟨c8_counter_nonneg_success_once.1 sysInit Relation.ReflTransGen.refl,
    c8_counter_nonneg_success_once.2 ⟨0, .PROCESSING, 0, 0, 0, 0, [0]⟩
      ⟨0, .SUCCESS, 0, 0, 0, 0, []⟩ hreach t4 rfl rfl⟩

/-! ## C9: order-independence of a whole crawl -/

theorem workerDirectories_nodeItems (p : List String) (fs : List (String × Option String))
    (ds : List (String × CTree)) :
    workerDirectories (nodeItems p (.node fs ds)) =
      ds.map fun q => ⟨p ++ [q.1], q.1, .dir, none⟩ := by
  simp [workerDirectories, nodeItems, List.filter_append, List.filter_map,
    Function.comp_def]

theorem workerFiles_nodeItems (p : List String) (fs : List (String × Option String))
    (ds : List (String × CTree)) :
    workerFiles (nodeItems p (.node fs ds)) =
      fs.map fun q => ⟨p ++ [q.1], q.1, .file, q.2⟩ := by
  simp [workerFiles, nodeItems, List.filter_append, List.filter_map,
    Function.comp_def]

theorem nodeItems_wf (p : List String) (t : CTree) :
    ∀ it ∈ nodeItems p t, it.path = p ++ [it.name] := by
  cases t with
  | node fs ds =>
    intro it hit
    simp only [nodeItems, List.mem_append, List.mem_map] at hit
    rcases hit with ⟨q, _, rfl⟩ | ⟨q, _, rfl⟩ <;> rfl

theorem perm_get_eraseIdx {α : Type} :
    ∀ (l : List α) (i : Fin l.length), l.Perm (l.get i :: l.eraseIdx i)
  | a :: l, ⟨0, _⟩ => by simp
  | a :: l, ⟨i + 1, h⟩ => by
    have hi : i < l.length := by simpa using h
    have ih := perm_get_eraseIdx l ⟨i, hi⟩
    have h1 : (a :: l).Perm (a :: (l.get ⟨i, hi⟩ :: l.eraseIdx i)) := ih.cons a
    have h2 : (a :: (l.get ⟨i, hi⟩ :: l.eraseIdx i)).Perm
        (l.get ⟨i, hi⟩ :: a :: l.eraseIdx i) :=
      List.Perm.swap (l.get ⟨i, hi⟩) a (l.eraseIdx i)
    exact h1.trans h2

theorem jobCountList_eq_sum (ds : List (String × CTree)) :
    jobCountList ds = (ds.map fun q => jobCount q.2).sum := by
  induction ds with
  | nil => rfl
  | cons q ds ih => simp [jobCountList, ih]

theorem jobCount_pos (t : CTree) : 0 < jobCount t := by
  cases t with
  | node fs ds =>
    simp only [jobCount]
    omega

theorem canonDirsList_eq_sum (repositoryId : String) (p : List String)
    (ds : List (String × CTree)) :
    canonDirsList repositoryId p ds =
      (ds.map fun q => canonDirs repositoryId (p ++ [q.1]) q.2).sum := by
  induction ds with
  | nil => rfl
  | cons q ds ih => simp [canonDirsList, ih]

theorem canonFilesList_eq_sum (repositoryId : String) (p : List String)
    (ds : List (String × CTree)) :
    canonFilesList repositoryId p ds =
      (ds.map fun q => canonFiles repositoryId (p ++ [q.1]) q.2).sum := by
  induction ds with
  | nil => rfl
  | cons q ds ih => simp [canonFilesList, ih]

theorem map_snd_enum_eq {α β : Type} (g : α → β) (b : List α) :
    b.enum.map (fun p => g p.2) = b.map g := by
  have h : b.enum.map (fun p => g p.2) = (b.enum.map Prod.snd).map g := by
    rw [List.map_map]
    rfl
  rw [h]
  congr 1
  exact List.enumFrom_map_snd 0 b

theorem workerDirectoryData_erased (repositoryId : String) (nid : Nat)
    (directories : List GitHubContent) :
    (workerDirectoryData repositoryId nid directories).map eraseDirId =
      directories.map fun it => (⟨it.path, repositoryId, none⟩ : EDirRow) := by
  unfold workerDirectoryData
  simp only [lookupRow, List.map_map, Function.comp_def, eraseDirId]
  exact map_snd_enum_eq
    (fun it : GitHubContent => (⟨it.path, repositoryId, none⟩ : EDirRow)) directories

theorem mkFileRows_erased (b : List GitHubContent) (nid : Nat) (repositoryId : String)
    (did : Option Nat) :
    (mkFileRows b nid repositoryId did).map eraseFileId =
      b.map fun f => (⟨f.path, f.name, f.content.getD "", repositoryId, did⟩ : EFileRow) := by
  unfold mkFileRows
  simp only [List.map_map, Function.comp_def, eraseFileId]
  exact map_snd_enum_eq
    (fun f : GitHubContent =>
      (⟨f.path, f.name, f.content.getD "", repositoryId, did⟩ : EFileRow)) b

theorem runBatches_allok_flatten_erased (repositoryId : String) (cp : List String)
    (did : Option Nat) :
    ∀ (bs : List (List GitHubContent)) (total i nid : Nat),
      (runBatches repositoryId cp did total (fun _ => none) i nid
          bs).committed.flatten.map eraseFileId =
        bs.flatten.map fun f =>
          (⟨f.path, f.name, f.content.getD "", repositoryId, did⟩ : EFileRow) := by
  intro bs
  induction bs with
  | nil => intro total i nid; rfl
  | cons b bs ih =>
    intro total i nid
    unfold runBatches
    simp only [List.flatten_cons, List.map_append, ih]
    rw [mkFileRows_erased]

theorem directoryWorkerRun_dirRows_eq (repositoryId : String) (path : List String)
    (fetchResult : Except String (List GitHubContent)) (dirTx : Option String)
    (B : Nat) (txOracle : Nat → Option String) (nid : Nat) :
    (directoryWorkerRun repositoryId path fetchResult dirTx B txOracle nid).dirRows =
      (directoryWorkerBody repositoryId path fetchResult dirTx B txOracle nid).dirRows := by
  simp only [directoryWorkerRun]
  split <;> rfl

theorem directoryWorkerRun_counterIncrs_eq (repositoryId : String) (path : List String)
    (fetchResult : Except String (List GitHubContent)) (dirTx : Option String)
    (B : Nat) (txOracle : Nat → Option String) (nid : Nat) :
    (directoryWorkerRun repositoryId path fetchResult dirTx B txOracle nid).counterIncrs =
      (directoryWorkerBody repositoryId path fetchResult dirTx B txOracle
        nid).counterIncrs := by
  simp only [directoryWorkerRun]
  split <;> rfl

theorem directoryWorkerRun_children_eq (repositoryId : String) (path : List String)
    (fetchResult : Except String (List GitHubContent)) (dirTx : Option String)
    (B : Nat) (txOracle : Nat → Option String) (nid : Nat) :
    (directoryWorkerRun repositoryId path fetchResult dirTx B txOracle nid).children =
      (directoryWorkerBody repositoryId path fetchResult dirTx B txOracle nid).children := by
  simp only [directoryWorkerRun]
  split <;> rfl

theorem directoryWorkerRun_statusWrite_of_ok (repositoryId : String) (path : List String)
    (fetchResult : Except String (List GitHubContent)) (dirTx : Option String)
    (B : Nat) (txOracle : Nat → Option String) (nid : Nat) (n : Nat)
    (h : (directoryWorkerBody repositoryId path fetchResult dirTx B txOracle nid).result =
      .ok n) :
    (directoryWorkerRun repositoryId path fetchResult dirTx B txOracle nid).statusWrite =
      none := by
  simp only [directoryWorkerRun, h]

theorem directoryWorkerBody_allok_fields (repositoryId : String) (p : List String)
    (items : List GitHubContent) (B : Nat) (nid : Nat) :
    (directoryWorkerBody repositoryId p (.ok items) none B (fun _ => none)
        nid).counterIncrs = (workerDirectories items).length ∧
    (directoryWorkerBody repositoryId p (.ok items) none B (fun _ => none) nid).children =
      (workerDirectories items).map (·.path) ∧
    (directoryWorkerBody repositoryId p (.ok items) none B (fun _ => none) nid).dirRows =
      workerDirectoryData repositoryId nid (workerDirectories items) ∧
    (directoryWorkerBody repositoryId p (.ok items) none B (fun _ => none)
        nid).fileBatches =
      (processFilesInBatches repositoryId p
        (workerDirectoryId
          (buildDirectoryMap (workerDirectoryData repositoryId nid (workerDirectories items)))
          (workerFiles items))
        B (fun _ => none) (workerFiles items)
        (nid + (workerDirectoryData repositoryId nid (workerDirectories items)).length)).committed ∧
    (directoryWorkerBody repositoryId p (.ok items) none B (fun _ => none) nid).result =
      .ok items.length := by
  have hres : (processFilesInBatches repositoryId p
      (workerDirectoryId
        (buildDirectoryMap (workerDirectoryData repositoryId nid (workerDirectories items)))
        (workerFiles items))
      B (fun _ => none) (workerFiles items)
      (nid + (workerDirectoryData repositoryId nid
        (workerDirectories items)).length)).result = .ok 0 := by
    rw [processFilesInBatches_result_eq]
    exact (runBatches_ok_spec repositoryId p _ _ (fun _ => none) (fun _ => rfl) _ 0 _).1
  simp only [directoryWorkerBody]
  split
  · rename_i e heq
    rw [hres] at heq
    cases heq
  · exact ⟨rfl, rfl, rfl, rfl, rfl⟩

/-- What one job (directory expansion) contributes to the persisted state
when everything succeeds: its own-level directory and file rows (with all
references `none`, as the worker behaves), one counter increment per
subdirectory, one enqueued child per subdirectory, and no status write. -/
theorem worker_contrib (repositoryId : String) (B : Nat) (hB : 0 < B) (p : List String)
    (fs : List (String × Option String)) (ds : List (String × CTree)) (nid : Nat) :
    (directoryWorkerRun repositoryId p (.ok (nodeItems p (.node fs ds))) none B
        (fun _ => none) nid).statusWrite = none ∧
    (directoryWorkerRun repositoryId p (.ok (nodeItems p (.node fs ds))) none B
        (fun _ => none) nid).dirRows.map eraseDirId =
      ds.map (fun q => (⟨p ++ [q.1], repositoryId, none⟩ : EDirRow)) ∧
    (directoryWorkerRun repositoryId p (.ok (nodeItems p (.node fs ds))) none B
        (fun _ => none) nid).fileBatches.flatten.map eraseFileId =
      fs.map (fun q =>
        (⟨p ++ [q.1], q.1, q.2.getD "", repositoryId, none⟩ : EFileRow)) ∧
    (directoryWorkerRun repositoryId p (.ok (nodeItems p (.node fs ds))) none B
        (fun _ => none) nid).counterIncrs = ds.length ∧
    (directoryWorkerRun repositoryId p (.ok (nodeItems p (.node fs ds))) none B
        (fun _ => none) nid).children =
      (childrenOf p (.node fs ds)).map Prod.fst := by
  obtain ⟨hc, hch, hdr, hfb, hres⟩ :=
    directoryWorkerBody_allok_fields repositoryId p (nodeItems p (.node fs ds)) B nid
  refine ⟨directoryWorkerRun_statusWrite_of_ok _ _ _ _ _ _ _ _ hres, ?_, ?_, ?_, ?_⟩
  · rw [directoryWorkerRun_dirRows_eq, hdr, workerDirectoryData_erased,
      workerDirectories_nodeItems]
    simp [List.map_map, Function.comp_def]
  · rw [directoryWorkerRun_fileBatches_eq, hfb, processFilesInBatches_committed_eq,
      workerDirectoryId_none repositoryId p _ nid (nodeItems_wf p _),
      runBatches_allok_flatten_erased, chunkBatches_flatten B hB,
      workerFiles_nodeItems]
    simp [List.map_map, Function.comp_def]
  · rw [directoryWorkerRun_counterIncrs_eq, hc, workerDirectories_nodeItems,
      List.length_map]
  · rw [directoryWorkerRun_children_eq, hch, workerDirectories_nodeItems]
    simp [childrenOf, List.map_map, Function.comp_def]

theorem onCompletedHandler_counter (c : Int) (st : RepositoryStatus) :
    (onCompletedHandler c st).counter = c - 1 := by
  by_cases hc : c - 1 = 0 ∧ st = RepositoryStatus.PROCESSING <;>
    simp [onCompletedHandler, hc]

theorem onCompletedHandler_status (c : Int) (st : RepositoryStatus) :
    (onCompletedHandler c st).status =
      if c - 1 = 0 ∧ st = RepositoryStatus.PROCESSING then .SUCCESS else st := by
  by_cases hc : c - 1 = 0 ∧ st = RepositoryStatus.PROCESSING <;>
    simp [onCompletedHandler, hc]

theorem crawlStepAt_invariant (repositoryId : String) (B : Nat) (hB : 0 < B)
    (s : CrawlState) (i : Fin s.pending.length)
    (h4 : s.counter = (s.pending.length : Int))
    (h5 : s.status = if s.pending.isEmpty then RepositoryStatus.SUCCESS
      else RepositoryStatus.PROCESSING) :
    pendingJobs (crawlStepAt repositoryId B s i).pending + 1 = pendingJobs s.pending ∧
    ((crawlStepAt repositoryId B s i).dirRows.map eraseDirId : Multiset EDirRow) +
        pendingDirs repositoryId (crawlStepAt repositoryId B s i).pending =
      (s.dirRows.map eraseDirId : Multiset EDirRow) +
        pendingDirs repositoryId s.pending ∧
    ((crawlStepAt repositoryId B s i).fileRows.map eraseFileId : Multiset EFileRow) +
        pendingFiles repositoryId (crawlStepAt repositoryId B s i).pending =
      (s.fileRows.map eraseFileId : Multiset EFileRow) +
        pendingFiles repositoryId s.pending ∧
    (crawlStepAt repositoryId B s i).counter =
      ((crawlStepAt repositoryId B s i).pending.length : Int) ∧
    (crawlStepAt repositoryId B s i).status =
      (if (crawlStepAt repositoryId B s i).pending.isEmpty then RepositoryStatus.SUCCESS
        else RepositoryStatus.PROCESSING) := by
  have hne : s.pending ≠ [] :=
    List.length_pos.mp (Nat.lt_of_le_of_lt (Nat.zero_le i.val) i.2)
  rcases hjob : s.pending.get i with ⟨p, u⟩
  cases u with
  | node fs ds =>
  have hperm := perm_get_eraseIdx s.pending i
  rw [hjob] at hperm
  obtain ⟨hsw, hdr, hfr, hci, hch⟩ := worker_contrib repositoryId B hB p fs ds s.nextId
  have hst : s.status = RepositoryStatus.PROCESSING := by
    rw [h5, if_neg]
    simp [hne]
  have hchildlen : (childrenOf p (CTree.node fs ds)).length = ds.length := by
    simp [childrenOf]
  have herase1 : (s.pending.eraseIdx i).length + 1 = s.pending.length :=
    List.length_eraseIdx_add_one i.2
  simp only [crawlStepAt, hjob]
  have hcounter : (onCompletedHandler (s.counter + ↑(directoryWorkerRun repositoryId p
      (.ok (nodeItems p (CTree.node fs ds))) none B (fun _ => none)
      s.nextId).counterIncrs) s.status).counter =
      ((s.pending.eraseIdx i ++ childrenOf p (CTree.node fs ds)).length : Int) := by
    rw [onCompletedHandler_counter, hci, h4, List.length_append, hchildlen]
    push_cast
    omega
  refine ⟨?_, ?_, ?_, hcounter, ?_⟩
  · -- job conservation
    have hsum : pendingJobs s.pending =
        jobCount (CTree.node fs ds) + pendingJobs (s.pending.eraseIdx i) := by
      unfold pendingJobs
      rw [(hperm.map _).sum_eq]
      simp
    have hchild : pendingJobs (childrenOf p (CTree.node fs ds)) = jobCountList ds := by
      unfold pendingJobs childrenOf
      rw [List.map_map, jobCountList_eq_sum]
      congr 1
    unfold pendingJobs at hsum hchild ⊢
    rw [List.map_append, List.sum_append, hchild, hsum]
    simp only [jobCount]
    omega
  · -- directory-row conservation
    have hpdirs : pendingDirs repositoryId s.pending =
        canonDirs repositoryId p (CTree.node fs ds) +
          pendingDirs repositoryId (s.pending.eraseIdx i) := by
      unfold pendingDirs
      rw [(hperm.map _).sum_eq]
      simp
    have hpchild : pendingDirs repositoryId (childrenOf p (CTree.node fs ds)) =
        canonDirsList repositoryId p ds := by
      unfold pendingDirs childrenOf
      rw [List.map_map, canonDirsList_eq_sum]
      congr 1
    unfold pendingDirs at hpdirs hpchild ⊢
    rw [List.map_append, List.map_append, List.sum_append, ← Multiset.coe_add, hdr,
      hpchild, hpdirs]
    simp only [canonDirs]
    abel
  · -- file-row conservation
    have hpfiles : pendingFiles repositoryId s.pending =
        canonFiles repositoryId p (CTree.node fs ds) +
          pendingFiles repositoryId (s.pending.eraseIdx i) := by
      unfold pendingFiles
      rw [(hperm.map _).sum_eq]
      simp
    have hpchild : pendingFiles repositoryId (childrenOf p (CTree.node fs ds)) =
        canonFilesList repositoryId p ds := by
      unfold pendingFiles childrenOf
      rw [List.map_map, canonFilesList_eq_sum]
      congr 1
    unfold pendingFiles at hpfiles hpchild ⊢
    rw [List.map_append, List.map_append, List.sum_append, ← Multiset.coe_add, hfr,
      hpchild, hpfiles]
    simp only [canonFiles]
    abel
  · -- status
    rw [onCompletedHandler_status, hst]
    have hcond : (s.counter + ↑(directoryWorkerRun repositoryId p
        (.ok (nodeItems p (CTree.node fs ds))) none B (fun _ => none)
        s.nextId).counterIncrs - 1 = 0) ↔
        ((s.pending.eraseIdx i ++ childrenOf p (CTree.node fs ds)).length : Int) = 0 := by
      rw [hci, h4, List.length_append, hchildlen]
      push_cast
      omega
    split
    next hta =>
      have h6 := hcond.mp hta.1
      have h7 : (s.pending.eraseIdx i.val ++ childrenOf p (CTree.node fs ds)).isEmpty =
          true :=
        List.isEmpty_iff_length_eq_zero.mpr (by exact_mod_cast h6)
      rw [if_pos h7]
    next hta =>
      have h7 : ¬(s.pending.eraseIdx i.val ++ childrenOf p (CTree.node fs ds)).isEmpty =
          true := by
        intro hemp2
        apply hta
        refine ⟨hcond.mpr ?_, rfl⟩
        have h8 := List.isEmpty_iff_length_eq_zero.mp hemp2
        exact_mod_cast h8
      rw [if_neg h7]

theorem runFrom_canonical (repositoryId : String) (B : Nat) (hB : 0 < B) (t : CTree)
    (σ : Nat → Nat) :
    ∀ (n k : Nat) (s : CrawlState),
      pendingJobs s.pending = n →
      (s.dirRows.map eraseDirId : Multiset EDirRow) + pendingDirs repositoryId s.pending =
        canonDirs repositoryId [] t →
      (s.fileRows.map eraseFileId : Multiset EFileRow) +
        pendingFiles repositoryId s.pending = canonFiles repositoryId [] t →
      s.counter = (s.pending.length : Int) →
      s.status = (if s.pending.isEmpty then RepositoryStatus.SUCCESS
        else RepositoryStatus.PROCESSING) →
      (runFrom repositoryId B σ k n s).pending = [] ∧
      ((runFrom repositoryId B σ k n s).dirRows.map eraseDirId : Multiset EDirRow) =
        canonDirs repositoryId [] t ∧
      ((runFrom repositoryId B σ k n s).fileRows.map eraseFileId : Multiset EFileRow) =
        canonFiles repositoryId [] t ∧
      (runFrom repositoryId B σ k n s).status = RepositoryStatus.SUCCESS := by
  intro n
  induction n with
  | zero =>
    intro k s h1 h2 h3 _ h5
    have hemp : s.pending = [] := by
      cases hp : s.pending with
      | nil => rfl
      | cons e l =>
        exfalso
        rw [hp] at h1
        unfold pendingJobs at h1
        simp only [List.map_cons, List.sum_cons] at h1
        have := jobCount_pos e.2
        omega
    refine ⟨hemp, ?_, ?_, ?_⟩
    · show (s.dirRows.map eraseDirId : Multiset EDirRow) = _
      rw [← h2, hemp]
      unfold pendingDirs
      simp
    · show (s.fileRows.map eraseFileId : Multiset EFileRow) = _
      rw [← h3, hemp]
      unfold pendingFiles
      simp
    · show s.status = _
      rw [h5, hemp]
      rfl
  | succ n ih =>
    intro k s h1 h2 h3 h4 h5
    have hlen : s.pending.length ≠ 0 := by
      intro h0
      rw [List.length_eq_zero.mp h0] at h1
      unfold pendingJobs at h1
      simp at h1
    obtain ⟨j1, j2, j3, j4, j5⟩ := crawlStepAt_invariant repositoryId B hB s
      ⟨σ k % s.pending.length, Nat.mod_lt (σ k) (Nat.pos_of_ne_zero hlen)⟩ h4 h5
    have hcrawl : crawlStep repositoryId B (σ k) s =
        crawlStepAt repositoryId B s ⟨σ k % s.pending.length,
          Nat.mod_lt (σ k) (Nat.pos_of_ne_zero hlen)⟩ := by
      simp only [crawlStep, dif_neg hlen]
    rw [show runFrom repositoryId B σ k (n + 1) s =
      runFrom repositoryId B σ (k + 1) n (crawlStep repositoryId B (σ k) s) from rfl,
      hcrawl]
    exact ih (k + 1) _ (by omega) (j2.trans h2) (j3.trans h3) j4 j5

/-- **C9.** For every finite acyclic content tree, a successful crawl run
reaches the same final persisted state — the same multiset of id-erased
DirectoryNode rows (with their parent references), the same multiset of
id-erased FileNode rows (with their directory references), and the same
final run status (SUCCESS) — under every scheduler, i.e. regardless of the
order in which sibling (or any) pending jobs are dequeued and completed. -/
theorem c9_order_independence (repositoryId : String) (B : Nat) (hB : 0 < B)
    (σ₁ σ₂ : Nat → Nat) (t : CTree) :
    finalState (runCrawl repositoryId B σ₁ t) =
      finalState (runCrawl repositoryId B σ₂ t) := by
  have hcanon : ∀ σ : Nat → Nat,
      finalState (runCrawl repositoryId B σ t) =
        (canonDirs repositoryId [] t, canonFiles repositoryId [] t,
          RepositoryStatus.SUCCESS) := by
    intro σ
    obtain ⟨e1, e2, e3, e4⟩ := runFrom_canonical repositoryId B hB t σ (jobCount t) 0
      (crawlInit t)
      (by unfold pendingJobs crawlInit; simp)
      (by unfold pendingDirs crawlInit; simp)
      (by unfold pendingFiles crawlInit; simp)
      (by unfold crawlInit; simp)
      (by unfold crawlInit; rfl)
    unfold finalState runCrawl
    rw [e2, e3, e4]
  rw [hcanon σ₁, hcanon σ₂]

/-- Witness for C9 at a concrete tree and a concrete pair of schedulers. -/
theorem c9_order_independence_witness :
    0 < 100 ∧
    finalState (runCrawl "r" 100 (fun _ => 0)
        (CTree.node [("f", some "c")] [("s", CTree.node [] [])])) =
      finalState (runCrawl "r" 100 (fun k => k + 1)
        (CTree.node [("f", some "c")] [("s", CTree.node [] [])])) :=
  ⟨by decide,
    c9_order_independence "r" 100 (by decide) (fun _ => 0) (fun k => k + 1)
      (CTree.node [("f", some "c")] [("s", CTree.node [] [])])⟩
